import Mathlib

/-!
# Verification of the CONL tokenizer/parser (conl-js)

Shallow embedding of the TypeScript sources of `conl-js`.  Text is modelled
as `List Char` (one element per Unicode scalar value); JavaScript generators
are modelled as functions returning token lists; JavaScript exceptions are
modelled with `Except` (the error value is the thrown message).  Where a
loop is not structurally recursive, a fuel argument bounds it, always
instantiated large enough that exhaustion is unreachable.

The repository contains two tokenizer implementations:
* the tolerant one (`utils.ts` plus the `tokenize`/`tokens` pair that uses
  `TokenKind`/`Token` with an `error` field) — embedded in namespace `Conl`;
* the fail-fast one (`tokenizer.ts`, which throws `Error`s), used by
  `parser.ts`'s `parse` — embedded in namespace `ConlFF`.
-/

namespace Conl

/-- The space/tab characters of the sources' `[ \t]` classes. -/
def isHWs (c : Char) : Bool := c = ' ' || c = '\t'

/-- JavaScript's notion of whitespace, as used by `String.prototype.trimEnd`
and by `parseInt`'s leading-whitespace skipping: space, tab, LF, VT, FF,
CR, NBSP, and the Unicode space separators U+1680, U+2000-U+200A, U+2028,
U+2029, U+202F, U+205F, U+3000, U+FEFF. -/
def isJsWs (c : Char) : Bool :=
  [0x20, 0x09, 0x0A, 0x0B, 0x0C, 0x0D, 0xA0, 0x1680, 0x2028, 0x2029,
   0x202F, 0x205F, 0x3000, 0xFEFF].contains c.toNat ||
  (0x2000 <= c.toNat && c.toNat <= 0x200A)

/-- A JavaScript line terminator (not matched by `.` in a regex without the
`s` flag): LF, CR, U+2028, U+2029. -/
def isLineTerm (c : Char) : Bool :=
  [0x0A, 0x0D, 0x2028, 0x2029].contains c.toNat


/-- `utils.ts` `trimLeft`: split off the leading run of spaces/tabs
(regex `^([ \t]*)(.*)`).  The `.` of the second group does not match a
JavaScript line terminator, so the rest is truncated at the first LF, CR,
U+2028 or U+2029 and the tail of the line is silently dropped. -/
def trimLeft (s : List Char) : List Char × List Char :=
  (s.takeWhile isHWs, (s.dropWhile isHWs).takeWhile (fun c => !isLineTerm c))

/-- `utils.ts` `cutPrefix`. -/
def cutPrefix (s pre : List Char) : List Char × Bool :=
  if pre.isPrefixOf s then (s.drop pre.length, true) else (s, false)

/-- `utils.ts` `trimRight`: drop the trailing characters contained in
`chars`. -/
def trimRight (s chars : List Char) : List Char :=
  (s.reverse.dropWhile (fun c => chars.contains c)).reverse

/-- JavaScript `String.prototype.trimEnd`. -/
def jsTrimEnd (s : List Char) : List Char :=
  (s.reverse.dropWhile isJsWs).reverse

/-- Split off the first line at `\r\n`, `\r` or `\n`; `none` in the second
component means no line break was found. -/
def splitFirstLine : List Char → List Char × Option (List Char)
  | [] => ([], none)
  | c :: t =>
    if c = '\r' then
      match t with
      | d :: t2 => if d = '\n' then ([], some t2) else ([], some t)
      | [] => ([], some [])
    else if c = '\n' then ([], some t)
    else
      let (l, r) := splitFirstLine t
      (c :: l, r)

/-- `utils.ts` `lines`, bounded by fuel: split on `\r\n|\r|\n` with 1-based
line numbers; nothing is produced for the empty remainder after a final
newline (matching `lastIndex < input.length`). -/
def linesUCore : Nat → Nat → List Char → List (Nat × List Char)
  | 0, _, _ => []
  | fuel + 1, lno, s =>
    match splitFirstLine s with
    | (_, none) => if s = [] then [] else [(lno, s)]
    | (l, some r) => (lno, l) :: linesUCore fuel (lno + 1) r

/-- `utils.ts` `lines`: the empty input still yields one empty line
(`input.length === 0` case). -/
def linesU (s : List Char) : List (Nat × List Char) :=
  if s = [] then [(1, [])] else linesUCore (s.length + 1) 1 s

/-- `utils.ts` `splitUnquoted`. -/
def splitUnquoted (input : List Char) (key : Bool) : List Char × List Char :=
  match (if key then input.findIdx? (fun c => c = '=') else none) with
  | some equalsIndex =>
    let before := input.take equalsIndex
    match before.findIdx? (fun c => c = ';') with
    | some semicolonIndex =>
      (jsTrimEnd (before.take semicolonIndex), input.drop semicolonIndex)
    | none => (jsTrimEnd before, input.drop equalsIndex)
  | none =>
    match input.findIdx? (fun c => c = ';') with
    | some semicolonIndex =>
      (jsTrimEnd (input.take semicolonIndex), input.drop semicolonIndex)
    | none => (jsTrimEnd input, [])

/-- The scan of `utils.ts` `splitLiteral` for an input starting with `"`:
find the first unescaped `"` after the opening one (`wasEscape` tracking);
returns the 0-based index of that quote, if any. -/
def closeQuoteIdx : List Char → Bool → Nat → Option Nat
  | [], _, _ => none
  | c :: t, wasEscape, i =>
    if c = '"' && !wasEscape then some i
    else closeQuoteIdx t (c = '\\' && !wasEscape) (i + 1)

/-- `utils.ts` `splitLiteral`. -/
def splitLiteral (input : List Char) (key : Bool) : List Char × List Char :=
  if input.head? = some '"' then
    match closeQuoteIdx input.tail false 1 with
    | some i =>
      let (before, after) := splitUnquoted (input.drop (i + 1)) key
      if before ≠ [] then (input.take (i + 1) ++ before, after)
      else (input.take (i + 1), after)
    | none => (input, [])
  else splitUnquoted input key

/-- One hexadecimal digit's value (`0`–`9`, `a`–`f`, `A`–`F`). -/
def hexDigitVal (c : Char) : Option Nat :=
  if 0x30 ≤ c.toNat ∧ c.toNat ≤ 0x39 then some (c.toNat - 0x30)
  else if 0x61 ≤ c.toNat ∧ c.toNat ≤ 0x66 then some (c.toNat - 0x61 + 10)
  else if 0x41 ≤ c.toNat ∧ c.toNat ≤ 0x46 then some (c.toNat - 0x41 + 10)
  else none

/-- JavaScript `parseInt(s, 16)`: skip leading whitespace, optional sign,
optional `0x`/`0X` prefix, then the maximal run of hex digits; `none` is
`NaN`.  (Double-precision rounding of extremely long digit runs is not
modelled; every comparison performed on the result by this code base is
unaffected for the inputs that reach it.) -/
def jsParseIntHex (s : List Char) : Option Int :=
  let s1 := s.dropWhile isJsWs
  let neg : Bool := s1.head? = some '-'
  let s2 := if s1.head? = some '-' ∨ s1.head? = some '+' then s1.tail else s1
  let s3 :=
    if s2.head? = some '0' ∧ (s2.tail.head? = some 'x' ∨ s2.tail.head? = some 'X')
    then s2.tail.tail else s2
  let digits := s3.takeWhile (fun c => (hexDigitVal c).isSome)
  if digits = [] then none
  else
    let v : Nat := digits.foldl (fun a c => a * 16 + ((hexDigitVal c).getD 0)) 0
    some (if neg then -(v : Int) else (v : Int))

/-- `String.fromCodePoint` for one argument: `RangeError` (as `Except.error`)
outside `[0, 0x10FFFF]`.  (Surrogate code points never reach this function:
every caller has already rejected them.) -/
def fromCodePoint (n : Int) : Except (List Char) Char :=
  if 0 ≤ n ∧ n ≤ 0x10FFFF then .ok (Char.ofNat n.toNat)
  else .error (("RangeError: Invalid code point " ++ toString n).data)

/-- Full match of `utils.ts` `decodeLiteral`'s `/^"((?:\\.|[^\\"])*)"$/`
against the characters after the opening quote: the captured group, if the
whole string matches. -/
def literalInner : List Char → Option (List Char)
  | [] => none
  | c :: t =>
    if c = '"' then if t = [] then some [] else none
    else if c = '\\' then
      match t with
      | [] => none
      | d :: t2 =>
        if isLineTerm d then none
        else (literalInner t2).map (fun r => '\\' :: d :: r)
    else (literalInner t).map (fun r => c :: r)

/-- The escape-decoding `while` loop of `utils.ts` `decodeLiteral`, scanning
the capture group.  Accumulates the decoded `result` and the first
`badEscape` found; `String.fromCodePoint` may throw (uncaught in the
source). -/
def decodeLoop (fuel : Nat) (content : List Char) (result : List Char)
    (badEscape : Option (List Char)) :
    Except (List Char) (List Char × Option (List Char)) :=
  match fuel with
  | 0 => .ok (result, badEscape)
  | fuel + 1 =>
    match content with
    | [] => .ok (result, badEscape)
    | '\\' :: next :: rest =>
      if next = 'n' then decodeLoop fuel rest (result ++ ['\n']) badEscape
      else if next = 'r' then decodeLoop fuel rest (result ++ ['\r']) badEscape
      else if next = 't' then decodeLoop fuel rest (result ++ ['\t']) badEscape
      else if next = '"' then decodeLoop fuel rest (result ++ ['"']) badEscape
      else if next = '\\' then decodeLoop fuel rest (result ++ ['\\']) badEscape
      else if next = '{' then
        match rest.findIdx? (fun c => c = '}') with
        | none =>
          decodeLoop fuel rest (result ++ ['\\', '{'])
            (badEscape.getD (('\\' :: '{' :: rest).take 12) |> some)
        | some j =>
          -- absolute closeIndex is i + 2 + j; `closeIndex === i + 2` is j = 0,
          -- `closeIndex - i > 10` is j > 8
          if j = 0 ∨ j > 8 then
            decodeLoop fuel rest (result ++ ['\\', '{'])
              (badEscape.getD (('\\' :: '{' :: rest).take 12) |> some)
          else
            let hexCode := rest.take j
            let raw := ('\\' :: '{' :: rest).take (j + 3)
            match jsParseIntHex hexCode with
            | none =>
              decodeLoop fuel (rest.drop (j + 1)) (result ++ raw)
                (badEscape.getD raw |> some)
            | some codePoint =>
              if codePoint > 0x10FFFF ∨ (0xD800 ≤ codePoint ∧ codePoint ≤ 0xDFFF) then
                decodeLoop fuel (rest.drop (j + 1)) (result ++ raw)
                  (badEscape.getD raw |> some)
              else do
                let ch ← fromCodePoint codePoint
                decodeLoop fuel (rest.drop (j + 1)) (result ++ [ch]) badEscape
      else
        decodeLoop fuel rest (result ++ ['\\', next])
          (badEscape.getD ['\\', next] |> some)
    | c :: rest => decodeLoop fuel rest (result ++ [c]) badEscape

/-- `utils.ts` `decodeLiteral`: decode a quoted (or pass through an
unquoted) literal, reporting a tolerated error in the second component; an
uncaught `RangeError` escapes as `Except.error`. -/
def decodeLiteralU (input : List Char) :
    Except (List Char) (List Char × Option (List Char)) :=
  if input.head? = some '"' then
    match literalInner input.tail with
    | none =>
      if input.getLast? = some '"' then .ok ([], "characters after quotes".data)
      else .ok ([], "unclosed quotes".data)
    | some content => do
      let (result, badEscape) ← decodeLoop (content.length + 1) content [] none
      match badEscape with
      | some bad => return ([], ("invalid escape code: ".data ++ bad))
      | none => return (result, none)
  else .ok (input, none)

/-- `utils.ts` `checkUtf8`: JavaScript strings need no UTF-8 validation. -/
def checkUtf8 (_content : List Char) : Option (List Char) := none

/-- `types.ts` `TokenKind`. -/
inductive TokenKind where
  | Comment | Indent | Outdent | MapKey | ListItem | Scalar | NoValue
  | MultilineScalar | MultilineHint
deriving DecidableEq, Repr

/-- `types.ts` `Token`. -/
structure Token where
  lno : Nat
  kind : TokenKind
  content : List Char
  error : Option (List Char) := none
deriving DecidableEq, Repr

/-- The characters of `trimRight(multilineValue, ' \t\r\n')`. -/
def mlTrimChars : List Char := [' ', '\t', '\r', '\n']

/-- The mutable state of the tolerant `tokenize` generator.  The indent
stack keeps its top at the HEAD of the list (the JS array keeps it at the
end). -/
structure LexState where
  stack : List (List Char)
  multiline : Bool
  multilinePrefix : List Char
  multilineValue : List Char
  multilineLno : Nat
deriving DecidableEq, Repr

def initLexState : LexState :=
  { stack := [[]], multiline := false, multilinePrefix := [],
    multilineValue := [], multilineLno := 0 }

/-- The `while (!indent.startsWith(stack[stack.length - 1]))` pop loop,
emitting one `Outdent` per popped entry.  (The loop always stops at the
root entry `""`, which is a prefix of every indent.) -/
def popOutdents (stack : List (List Char)) (indent : List Char) (lno : Nat) :
    List (List Char) × List Token :=
  match stack with
  | [] => ([], [])
  | top :: rest =>
    if top.isPrefixOf indent then (stack, [])
    else
      let (s', ts) := popOutdents rest indent lno
      (s', { lno := lno, kind := .Outdent, content := [] } :: ts)

/-- The value part of the tolerant `tokenize` loop body: everything after
the `ListItem`/`MapKey` emission — trailing comment, multiline indicator,
or scalar value (with its own trailing comment). -/
def lexValue (st : LexState) (lno : Nat) (currentRest : List Char) :
    Except (List Char) (LexState × List Token) :=
  if (cutPrefix currentRest [';']).2 then
    .ok (st, [{ lno := lno, kind := .Comment,
                content := (cutPrefix currentRest [';']).1,
                error := checkUtf8 (cutPrefix currentRest [';']).1 }])
  else if (cutPrefix currentRest ['"', '"', '"']).2 then
    .ok ({ st with multiline := true, multilineLno := lno },
      { lno := lno, kind := .MultilineHint,
        content := (splitLiteral (cutPrefix currentRest ['"', '"', '"']).1 false).1,
        error := checkUtf8 (splitLiteral (cutPrefix currentRest ['"', '"', '"']).1 false).1 } ::
      (if (cutPrefix (splitLiteral (cutPrefix currentRest ['"', '"', '"']).1 false).2 [';']).2 then
        [{ lno := lno, kind := .Comment,
           content := (cutPrefix (splitLiteral (cutPrefix currentRest ['"', '"', '"']).1 false).2 [';']).1,
           error := checkUtf8 (cutPrefix (splitLiteral (cutPrefix currentRest ['"', '"', '"']).1 false).2 [';']).1 }]
      else []))
  else if (splitLiteral currentRest false).1 ≠ [] then
    match decodeLiteralU (splitLiteral currentRest false).1 with
    | .error e => .error e
    | .ok x =>
      .ok (st, { lno := lno, kind := .Scalar, content := x.1, error := x.2 } ::
        (if (cutPrefix (splitLiteral currentRest false).2 [';']).2 then
          [{ lno := lno, kind := .Comment,
             content := (cutPrefix (splitLiteral currentRest false).2 [';']).1,
             error := checkUtf8 (cutPrefix (splitLiteral currentRest false).2 [';']).1 }]
        else []))
  else
    .ok (st,
      if (cutPrefix (splitLiteral currentRest false).2 [';']).2 then
        [{ lno := lno, kind := .Comment,
           content := (cutPrefix (splitLiteral currentRest false).2 [';']).1,
           error := checkUtf8 (cutPrefix (splitLiteral currentRest false).2 [';']).1 }]
      else [])

/-- The remainder of a map-key line after the key literal: skip whitespace
and one `=` (with surrounding whitespace). -/
def afterKeyRest (afterKey : List Char) : List Char :=
  if (cutPrefix (trimLeft afterKey).2 ['=']).2 then
    (trimLeft (cutPrefix (trimLeft afterKey).2 ['=']).1).2
  else (trimLeft afterKey).2

/-- The non-multiline part of the tolerant `tokenize` loop body (everything
after the `if (multiline)` block in `types.ts`'s `tokenize`). -/
def lexMain (st : LexState) (lno : Nat) (indent rest : List Char) :
    Except (List Char) (LexState × List Token) :=
  if rest = [] then .ok (st, [])
  else if (cutPrefix rest [';']).2 then
    .ok (st, [{ lno := lno, kind := .Comment,
                content := (cutPrefix rest [';']).1,
                error := checkUtf8 (cutPrefix rest [';']).1 }])
  else if (cutPrefix rest ['=']).2 then
    match lexValue
        { st with stack :=
            if indent ≠ ((popOutdents st.stack indent lno).1.headD []) then
              indent :: (popOutdents st.stack indent lno).1
            else (popOutdents st.stack indent lno).1 }
        lno (trimLeft (cutPrefix rest ['=']).1).2 with
    | .error e => .error e
    | .ok x =>
      .ok (x.1, (popOutdents st.stack indent lno).2 ++
        (if indent ≠ ((popOutdents st.stack indent lno).1.headD []) then
          [({ lno := lno, kind := .Indent, content := indent } : Token)]
        else []) ++
        { lno := lno, kind := .ListItem, content := [] } :: x.2)
  else
    match decodeLiteralU (splitLiteral rest true).1 with
    | .error e => .error e
    | .ok k =>
      match lexValue
          { st with stack :=
              if indent ≠ ((popOutdents st.stack indent lno).1.headD []) then
                indent :: (popOutdents st.stack indent lno).1
              else (popOutdents st.stack indent lno).1 }
          lno (afterKeyRest (splitLiteral rest true).2) with
      | .error e => .error e
      | .ok x =>
        .ok (x.1, (popOutdents st.stack indent lno).2 ++
          (if indent ≠ ((popOutdents st.stack indent lno).1.headD []) then
            [({ lno := lno, kind := .Indent, content := indent } : Token)]
          else []) ++
          { lno := lno, kind := .MapKey, content := k.1, error := k.2 } :: x.2)

/-- One full iteration of the tolerant `tokenize` loop: the multiline
handling first (which may fall through to normal processing of the same
line), then `lexMain`. -/
def lexLine (st : LexState) (lno : Nat) (content : List Char) :
    Except (List Char) (LexState × List Token) :=
  if st.multiline then
    if st.multilinePrefix = [] then
      if (st.stack.headD []).isPrefixOf (trimLeft content).1 ∧
          (trimLeft content).1 ≠ st.stack.headD [] then
        .ok ({ st with multilinePrefix := (trimLeft content).1,
                       multilineValue := (trimLeft content).2,
                       multilineLno := lno }, [])
      else if (trimLeft content).2 = [] then
        .ok (st, [])
      else
        match lexMain { st with multiline := false } lno
            (trimLeft content).1 (trimLeft content).2 with
        | .error e => .error e
        | .ok x =>
          .ok (x.1, { lno := st.multilineLno, kind := .MultilineScalar,
                      content := [],
                      error := some "missing multiline value".data } :: x.2)
    else
      if st.multilinePrefix.isPrefixOf content then
        .ok ({ st with multilineValue :=
                 st.multilineValue ++ '\n' :: content.drop st.multilinePrefix.length }, [])
      else if (trimLeft content).2 = [] then
        .ok ({ st with multilineValue := st.multilineValue ++ ['\n'] }, [])
      else
        match lexMain { st with multiline := false, multilinePrefix := [],
                                multilineValue := [] } lno
            (trimLeft content).1 (trimLeft content).2 with
        | .error e => .error e
        | .ok x =>
          .ok (x.1, { lno := st.multilineLno, kind := .MultilineScalar,
                      content := trimRight st.multilineValue mlTrimChars,
                      error := checkUtf8 (trimRight st.multilineValue mlTrimChars) } :: x.2)
  else
    lexMain st lno (trimLeft content).1 (trimLeft content).2

/-- Fold `lexLine` over the numbered lines. -/
def lexLines (st : LexState) :
    List (Nat × List Char) → Except (List Char) (LexState × List Token)
  | [] => .ok (st, [])
  | l :: rest =>
    match lexLine st l.1 l.2 with
    | .error e => .error e
    | .ok x =>
      match lexLines x.1 rest with
      | .error e => .error e
      | .ok y => .ok (y.1, x.2 ++ y.2)

/-- The `// Handle any remaining multiline` flush at the end of the
tolerant `tokenize`. -/
def tokenizeFlush (st : LexState) : List Token :=
  if st.multiline then
    if st.multilineValue ≠ [] then
      let finalContent := trimRight st.multilineValue mlTrimChars
      [{ lno := st.multilineLno, kind := .MultilineScalar,
         content := finalContent, error := checkUtf8 finalContent }]
    else
      [{ lno := st.multilineLno, kind := .MultilineScalar, content := [],
         error := some "missing multiline value".data }]
  else []

/-- Process a complete tail of the document: the remaining lines, then the
end-of-input flush. -/
def lexAll (st : LexState) (ls : List (Nat × List Char)) :
    Except (List Char) (List Token) :=
  match lexLines st ls with
  | .error e => .error e
  | .ok x => .ok (x.2 ++ tokenizeFlush x.1)

/-- The tolerant `tokenize` of `types.ts`: raw tokens for the whole input. -/
def tokenizeT (input : List Char) : Except (List Char) (List Token) :=
  lexAll initLexState (linesU input)

/-- `types.ts` `ParseState`: one validator stack frame.  `kind` starts as
`Comment`, standing for "unset". -/
structure VFrame where
  kind : TokenKind
  hasKey : Bool
deriving DecidableEq, Repr

/-- One iteration of the validator loop in `types.ts` `tokens`.  The frame
stack keeps its top at the head (the JS array keeps it at the end).  A
JavaScript `TypeError` (property access on `undefined`) and the `default:`
throw are modelled as `Except.error`. -/
def vStep (frames : List VFrame) (lastLine : Nat) (t : Token) :
    Except (List Char) (List VFrame × Nat × List Token) :=
  match t.kind with
  | .Indent =>
    match frames with
    | [] => .error "TypeError".data
    | state :: rest =>
      if state.hasKey then
        .ok ({ kind := .Comment, hasKey := false } ::
               { state with hasKey := false } :: rest, t.lno, [t])
      else
        let kind := if state.kind = .Comment then .MapKey else state.kind
        let errTok : Token :=
          { lno := t.lno, kind := kind, content := [],
            error := some "unexpected indent".data }
        .ok ({ kind := .Comment, hasKey := false } :: state :: rest, t.lno,
             [errTok, t])
  | .Outdent =>
    match frames with
    | [] => .error "TypeError".data
    | state :: rest =>
      if state.hasKey then
        .ok (rest, t.lno,
             [{ lno := t.lno, kind := .NoValue, content := [] }, t])
      else .ok (rest, t.lno, [t])
  | .ListItem | .MapKey =>
    match frames with
    | [] => .error "TypeError".data
    | state :: rest =>
      let state := if state.kind = .Comment then { state with kind := t.kind } else state
      let noValToks : List Token :=
        if state.hasKey then [{ lno := t.lno, kind := .NoValue, content := [] }]
        else []
      let state := { state with hasKey := true }
      if state.kind = .MapKey ∧ t.kind = .ListItem then
        .ok (state :: rest, lastLine, noValToks ++
          [{ lno := t.lno, kind := .MapKey, content := [],
             error := some "unexpected list item".data }])
      else if state.kind = .ListItem ∧ t.kind = .MapKey then
        .ok (state :: rest, lastLine, noValToks ++
          [{ lno := t.lno, kind := .ListItem, content := [],
             error := some "unexpected map key".data }])
      else
        .ok (state :: rest, t.lno, noValToks ++ [t])
  | .Scalar | .MultilineScalar =>
    match frames with
    | [] => .error "TypeError".data
    | state :: rest => .ok ({ state with hasKey := false } :: rest, t.lno, [t])
  | .Comment | .MultilineHint => .ok (frames, t.lno, [t])
  | .NoValue => .error "Unknown token kind".data

/-- Run the validator loop over a raw token list. -/
def vRun (frames : List VFrame) (lastLine : Nat) :
    List Token → Except (List Char) (List VFrame × Nat × List Token)
  | [] => .ok (frames, lastLine, [])
  | t :: ts =>
    match vStep frames lastLine t with
    | .error e => .error e
    | .ok x =>
      match vRun x.1 x.2.1 ts with
      | .error e => .error e
      | .ok y => .ok (y.1, y.2.1, x.2.2 ++ y.2.2)

/-- The `// Handle remaining states` flush at the end of `types.ts`
`tokens`: one `NoValue` per frame with a pending key, one `Outdent` per
frame except the bottom one. -/
def vFlush (lastLine : Nat) : List VFrame → List Token
  | [] => []
  | state :: rest =>
    (if state.hasKey then
       [({ lno := lastLine, kind := .NoValue, content := [] } : Token)]
     else []) ++
    (if rest ≠ [] then
       [({ lno := lastLine, kind := .Outdent, content := [] } : Token)]
     else []) ++
    vFlush lastLine rest

/-- `types.ts` `tokens`: the tolerant validated token stream. -/
def conlTokens (input : List Char) : Except (List Char) (List Token) :=
  match tokenizeT input with
  | .error e => .error e
  | .ok raw =>
    match vRun [{ kind := .Comment, hasKey := false }] 0 raw with
    | .error e => .error e
    | .ok x => .ok (x.2.2 ++ vFlush x.2.1 x.1)

/-! ### Stream checkers used by the theorem statements -/

/-- Replay the `Indent`/`Outdent` nesting depth of a token stream starting
from depth `d`; `none` when an `Outdent` would make it negative. -/
def replayDepth (d : Nat) : List Token → Option Nat
  | [] => some d
  | t :: ts =>
    match t.kind with
    | .Indent => replayDepth (d + 1) ts
    | .Outdent => if d = 0 then none else replayDepth (d - 1) ts
    | _ => replayDepth d ts

/-- Count the tokens of one kind. -/
def countKind (k : TokenKind) (ts : List Token) : Nat :=
  (ts.filter (fun t => t.kind = k)).length

/-- The section-homogeneity property as claimed: within each section
(each nesting level, ignoring `Comment`), every `MapKey`/`ListItem` token
either agrees with the kind fixed by the section's first such token, or
carries the corresponding `unexpected list item` / `unexpected map key`
error. -/
def secCheckStrict (stk : List (Option TokenKind)) : List Token → Bool
  | [] => true
  | t :: ts =>
    match t.kind with
    | .Indent => secCheckStrict (none :: stk) ts
    | .Outdent => secCheckStrict stk.tail ts
    | .MapKey | .ListItem =>
      match stk.head? with
      | none => false
      | some none => secCheckStrict (some t.kind :: stk.tail) ts
      | some (some k) =>
        if k = t.kind then secCheckStrict stk ts
        else if (k = .MapKey ∧ t.kind = .ListItem ∧
                  t.error = some "unexpected list item".data) ∨
                (k = .ListItem ∧ t.kind = .MapKey ∧
                  t.error = some "unexpected map key".data) then
          secCheckStrict stk ts
        else false
    | _ => secCheckStrict stk ts

/-- One step of the amended section-homogeneity check: only the
`MapKey`/`ListItem` tokens emitted without any error are required to share
one kind per section.  `none` is a violation. -/
def secStepTol (stk : List (Option TokenKind)) (t : Token) :
    Option (List (Option TokenKind)) :=
  match t.kind with
  | .Indent => some (none :: stk)
  | .Outdent => some stk.tail
  | .MapKey | .ListItem =>
    if t.error ≠ none then some stk
    else
      match stk.head? with
      | none => none
      | some none => some (some t.kind :: stk.tail)
      | some (some k) => if k = t.kind then some stk else none
  | _ => some stk

/-- Run the amended section-homogeneity check over a stream. -/
def secRunTol (stk : List (Option TokenKind)) :
    List Token → Option (List (Option TokenKind))
  | [] => some stk
  | t :: ts =>
    match secStepTol stk t with
    | none => none
    | some stk' => secRunTol stk' ts

/-- The amended section-homogeneity property of a whole stream. -/
def secCheckTol (stk : List (Option TokenKind)) (ts : List Token) : Bool :=
  (secRunTol stk ts).isSome

end Conl

namespace ConlFF

open Conl (isHWs isLineTerm trimLeft isJsWs jsParseIntHex fromCodePoint)

/-- `tokenizer.ts` line splitting, `input.split(/[ \t]*(?:\r\n|\r|\n)/)`:
each line break, together with the run of spaces/tabs immediately before
it, is a separator. -/
def splitLinesFF (fuel : Nat) (s : List Char) : List (List Char) :=
  match fuel with
  | 0 => [s]
  | fuel + 1 =>
    match s.findIdx? (fun c => c = '\n' || c = '\r') with
    | none => [s]
    | some j =>
      let line := (s.take j).reverse.dropWhile isHWs |>.reverse
      let rest := s.drop j
      match rest with
      | '\r' :: '\n' :: tail => line :: splitLinesFF fuel tail
      | _ :: tail => line :: splitLinesFF fuel tail
      | [] => [line]

/-- A line as stored by the tokenizer: `{ indent, content }` from
`line.match(/^([ \t]*)(.*)$/)!`.  A line containing U+2028 or U+2029 (the
only possible line terminators after splitting on `\r\n|\r|\n`) makes the
anchored match return `null`, and the non-null assertion turns the
destructuring into a `TypeError`. -/
def toLine (l : List Char) : Except (List Char) (List Char × List Char) :=
  if l.any isLineTerm then .error "TypeError".data
  else .ok (trimLeft l)

def linesFF (input : List Char) :
    Except (List Char) (List (List Char × List Char)) :=
  (splitLinesFF (input.length + 1) input).mapM toLine

/-- The quoted-span part `"(?:[^"\\]|\\.)*"` of `SPLIT_LINE`, applied after
the opening quote: rest after the closing quote, or `none`. -/
def quotedSpan : List Char → Option (List Char)
  | [] => none
  | c :: t =>
    if c = '"' then some t
    else if c = '\\' then
      match t with
      | [] => none
      | d :: t2 => if isLineTerm d then none else quotedSpan t2
    else quotedSpan t

/-- The optional quoted part `(?:"…")?` when taken. -/
def matchQ : List Char → Option (List Char)
  | '"' :: t => quotedSpan t
  | _ => none

/-- One iteration of the unquoted-key part `(?:[^=; \t]|[ \t][^=; \t])*`. -/
def ukeyStep : List Char → Option (List Char)
  | [] => none
  | c :: t =>
    if c = '=' ∨ c = ';' then none
    else if c = ' ' ∨ c = '\t' then
      match t with
      | [] => none
      | d :: t2 =>
        if d = '=' ∨ d = ';' ∨ d = ' ' ∨ d = '\t' then none else some t2
    else some t

/-- One iteration of the unquoted-value part `(?:[^; \t]|[ \t][^; \t])*`. -/
def uvalStep : List Char → Option (List Char)
  | [] => none
  | c :: t =>
    if c = ';' then none
    else if c = ' ' ∨ c = '\t' then
      match t with
      | [] => none
      | d :: t2 =>
        if d = ';' ∨ d = ' ' ∨ d = '\t' then none else some t2
    else some t

/-- All stop positions of a greedy star, longest match first (the
backtracking order of the regex engine). -/
def starStops (step : List Char → Option (List Char)) :
    Nat → List Char → List (List Char)
  | 0, s => [s]
  | fuel + 1, s =>
    match step s with
    | some s' => starStops step fuel s' ++ [s]
    | none => [s]

/-- All stop positions of `[ \t]*`, longest match first. -/
def wsStops : List Char → List (List Char)
  | [] => [[]]
  | c :: t => if isHWs c then wsStops t ++ [c :: t] else [c :: t]

/-- Skip `[ \t]*` greedily. -/
def wsSkip (s : List Char) : List Char := s.dropWhile isHWs

/-- The final `(?:;|$)` of `SPLIT_LINE`. -/
def endOk (s : List Char) : Bool :=
  match s with
  | [] => true
  | c :: _ => c = ';'

/-- The candidate rest-positions of `(?:"…")? U*`, in backtracking order:
with the quoted part first (greedy `?`), then without it. -/
def literalCands (step : List Char → Option (List Char)) (s : List Char) :
    List (List Char) :=
  (match matchQ s with
   | some r => starStops step r.length r
   | none => []) ++ starStops step s.length s

/-- `SPLIT_LINE` of `tokenizer.ts`, as a backtracking matcher:
`^(key)(?:[ \t]*=[ \t]*(value))?[ \t]*(?:;|$)`; `none` models a failed
match (the subsequent destructuring of `null` throws a `TypeError`). -/
def splitLineFF (line : List Char) : Option (List Char × Option (List Char)) :=
  (literalCands ukeyStep line).findSome? fun rest1 =>
    let key := line.take (line.length - rest1.length)
    let withGroup : Option (List Char × Option (List Char)) :=
      match wsSkip rest1 with
      | '=' :: rest2 =>
        (wsStops rest2).findSome? fun vstart =>
          (literalCands uvalStep vstart).findSome? fun rest3 =>
            if endOk (wsSkip rest3) then
              some (key, some (vstart.take (vstart.length - rest3.length)))
            else none
      | _ => none
    withGroup <|> (if endOk (wsSkip rest1) then some (key, none) else none)

/-- JavaScript `input.substring(1, input.length - 1)` (arguments are
swapped when `1 > length - 1`, i.e. on the one-character string `"`). -/
def innerSubstring (input : List Char) : List Char :=
  if input.length ≤ 1 then input.take 1 else (input.drop 1).dropLast

/-- The replacement loop of `tokenizer.ts` `decodeLiteral`'s
`/\\\{([^}]*)\}|\\(.)|(")/g`, throwing on a bare quote or a bad escape. -/
def ffDecodeLoop (lno : Nat) : Nat → List Char → Except (List Char) (List Char)
  | 0, _ => .ok []
  | _ + 1, [] => .ok []
  | fuel + 1, c :: rest =>
    if c = '"' then
      .error ((toString (lno + 1)).data ++ ": characters after quotes".data)
    else if c = '\\' then
      match rest with
      | [] => do
        -- a trailing lone backslash matches no alternative and is copied
        let r ← ffDecodeLoop lno fuel []
        return '\\' :: r
      | next :: rest2 =>
        if next = '{' ∧ (rest2.findIdx? (fun c => c = '}')).isSome then
          let j := (rest2.findIdx? (fun c => c = '}')).getD 0
          let hex := rest2.take j
          let matchTxt := '\\' :: '{' :: rest2.take (j + 1)
          match jsParseIntHex hex with
          | none =>
            .error ((toString (lno + 1)).data ++ ": invalid escape code: ".data ++ matchTxt)
          | some codePoint =>
            if hex.length > 8 ∨ codePoint > 0x10FFFF ∨
                (0xD800 ≤ codePoint ∧ codePoint ≤ 0xDFFF) then
              .error ((toString (lno + 1)).data ++ ": invalid escape code: ".data ++ matchTxt)
            else do
              let ch ← fromCodePoint codePoint
              let r ← ffDecodeLoop lno fuel (rest2.drop (j + 1))
              return ch :: r
        else if isLineTerm next then do
          -- `\\(.)` cannot match a line terminator: the backslash is copied
          let r ← ffDecodeLoop lno fuel rest
          return '\\' :: r
        else
          if next = 'n' then (ffDecodeLoop lno fuel rest2).map ('\n' :: ·)
          else if next = 'r' then (ffDecodeLoop lno fuel rest2).map ('\r' :: ·)
          else if next = 't' then (ffDecodeLoop lno fuel rest2).map ('\t' :: ·)
          else if next = '"' then (ffDecodeLoop lno fuel rest2).map ('"' :: ·)
          else if next = '\\' then (ffDecodeLoop lno fuel rest2).map ('\\' :: ·)
          else
            -- includes `\{` without a closing brace: parseInt(undefined) is NaN
            .error ((toString (lno + 1)).data ++ ": invalid escape code: \\".data ++ [next])
    else (ffDecodeLoop lno fuel rest).map (c :: ·)

/-- `tokenizer.ts` `decodeLiteral` (the fail-fast one). -/
def decodeLiteralFF (lno : Nat) (input : List Char) :
    Except (List Char) (List Char) :=
  if input.head? = some '"' then
    if input.getLast? ≠ some '"' then
      .error ((toString (lno + 1)).data ++ ": unclosed quotes".data)
    else
      let content := innerSubstring input
      ffDecodeLoop lno (content.length + 1) content
  else .ok input

/-- The raw token kinds of `tokenizer.ts` (plus the internal `multiline`
marker produced by `tokenizeLine`). -/
inductive LKind where
  | outdent
  | indent
  | item
  | key (content : List Char)
  | scalar (content : List Char)
  | multiline
deriving DecidableEq, Repr

/-- `tokenizer.ts` `Token`. -/
inductive FKind where
  | indent
  | outdent
  | item
  | key (content : List Char)
  | scalar (content : List Char)
  | nullv
deriving DecidableEq, Repr

structure FTok where
  lno : Nat
  kind : FKind
deriving DecidableEq, Repr

/-- One entry of the fail-fast tokenizer's indent stack:
`{ indent, kind?: "item" | "key" }`. -/
inductive EntKind where
  | item
  | key
deriving DecidableEq, Repr

structure FrameFF where
  indent : List Char
  kind : Option EntKind
deriving DecidableEq, Repr

/-- The pop loop of the fail-fast `tokenizeLine` (top of stack at the
head). -/
def popOutdentsFF (stack : List FrameFF) (indent : List Char) :
    List FrameFF × List LKind :=
  match stack with
  | [] => ([], [])
  | top :: rest =>
    if top.indent.isPrefixOf indent then (stack, [])
    else
      let (s', ts) := popOutdentsFF rest indent
      (s', .outdent :: ts)

/-- Is `tail` the multiline marker, `/^"""(?![ \t]*")/`? -/
def isMlMarker (tail : List Char) : Bool :=
  match tail with
  | '"' :: '"' :: '"' :: rest =>
    match wsSkip rest with
    | '"' :: _ => false
    | _ => true
  | _ => false

/-- `tokenizer.ts` `tokenizeLine`: stack pops/pushes plus the raw tokens of
one line.  Throws propagate from `decodeLiteral`; a `SPLIT_LINE` match
failure is JavaScript's `TypeError` on destructuring `null`. -/
def tokenizeLineFF (stack : List FrameFF) (lno : Nat)
    (indent content : List Char) :
    Except (List Char) (List FrameFF × List LKind) := do
  if content = [] ∨ content.head? = some ';' then return (stack, [])
  let (stack1, outs) := popOutdentsFF stack indent
  let (stack2, ins) :=
    if indent ≠ (stack1.headD ⟨[], none⟩).indent then
      (({ indent := indent, kind := none } : FrameFF) :: stack1, [LKind.indent])
    else (stack1, [])
  match splitLineFF content with
  | none => .error "TypeError".data
  | some (key, tail) => do
    let entry : LKind ←
      if key ≠ [] then do
        let k ← decodeLiteralFF lno key
        pure (LKind.key k)
      else pure LKind.item
    let valueToks : List LKind ←
      match tail with
      | none => pure []
      | some t =>
        if isMlMarker t then pure [LKind.multiline]
        else if t ≠ [] then do
          let v ← decodeLiteralFF lno t
          pure [LKind.scalar v]
        else pure []
    return (stack2, outs ++ ins ++ entry :: valueToks)

/-- `tokenizer.ts` `consumeMultiline`: skip blank lines, require a strictly
deeper-indented line, then collect lines sharing (or blank within) its
prefix.  Returns the updated `lno` and the scalar content. -/
def consumeMultilineFF (lines : List (List Char × List Char)) (indent : List Char) :
    Nat → Nat → Except (List Char) (Nat × List Char)
  | 0, lno => .ok (lno, [])
  | fuel + 1, lno =>
    match lines.get? (lno + 1) with
    | some (_, []) => consumeMultilineFF lines indent fuel (lno + 1)
    | other =>
      match other with
      | none => .error ((toString (lno + 1)).data ++ ": missing multiline value".data)
      | some (ind1, _) =>
        if ¬ indent.isPrefixOf ind1 ∨ ind1 = indent then
          .error ((toString (lno + 1)).data ++ ": missing multiline value".data)
        else
          let (res, lno') := collect ind1 fuel (lno + 1)
            ((lines.get? (lno + 1)).getD ([], []) |>.2)
          .ok (lno', dropTrailingNl res)
where
  /-- The inner `while` loop accumulating `result`. -/
  collect (pre : List Char) : Nat → Nat → List Char → List Char × Nat :=
    fun fuel lno acc =>
      match fuel with
      | 0 => (acc, lno)
      | fuel + 1 =>
        match lines.get? (lno + 1) with
        | some (ind, cont) =>
          if pre.isPrefixOf ind ∨ cont = [] then
            collect pre fuel (lno + 1)
              (acc ++ '\n' :: replaceFirst ind pre ++ cont)
          else (acc, lno)
        | none => (acc, lno)
  /-- `result.replace(/\n+$/, "")`. -/
  dropTrailingNl (s : List Char) : List Char :=
    (s.reverse.dropWhile (fun c => c = '\n')).reverse
  /-- JavaScript `indent.replace(prefix, "")`: remove the first occurrence
  of `prefix`, if any. -/
  replaceFirst (s pat : List Char) : List Char :=
    if pat = [] then s
    else
      match findSub s pat 0 with
      | some i => s.take i ++ s.drop (i + pat.length)
      | none => s
  /-- First index at which `pat` occurs in `s`. -/
  findSub : List Char → List Char → Nat → Option Nat :=
    fun s pat i =>
      match s with
      | [] => if pat = [] then some i else none
      | _ :: t => if pat.isPrefixOf s then some i else findSub t pat (i + 1)

/-- The mutable state of the fail-fast `tokens` loop (besides `lno`):
the indent stack and the `lastLno` pending-key sentinel (`-1` is `none`). -/
structure OuterSt where
  stack : List FrameFF
  lastLno : Option Nat
deriving DecidableEq, Repr

/-- Process the tokens `tokenizeLine` produced for one line: the body of
`for (const token of tokenizeLine(indent, content))` in the fail-fast
`tokens`.  Returns the state, the (possibly advanced) `lno`, and the
emitted tokens. -/
def procLToks (lines : List (List Char × List Char)) (indent : List Char) :
    OuterSt → Nat → List LKind → Except (List Char) (OuterSt × Nat × List FTok)
  | st, lno, [] => .ok (st, lno, [])
  | st, lno, t :: ts => do
    let (st', lno', out) ← (do
      match t with
      | .outdent =>
        match st.lastLno with
        | some l =>
          pure ({ st with lastLno := none }, lno,
                [⟨l, .nullv⟩, ⟨lno, FKind.outdent⟩])
        | none => pure (st, lno, [⟨lno, FKind.outdent⟩])
      | .indent =>
        match st.lastLno with
        | none => .error ((toString (lno + 1)).data ++ ": unexpected indent".data)
        | some _ => pure ({ st with lastLno := none }, lno, [⟨lno, FKind.indent⟩])
      | .item =>
        match st.stack with
        | [] => .error "TypeError".data
        | top :: rest =>
          if top.kind = none then
            let stack := { top with kind := some EntKind.item } :: rest
            let nulls : List FTok :=
              match st.lastLno with
              | some l => [⟨l, .nullv⟩]
              | none => []
            pure ({ stack := stack, lastLno := some lno }, lno,
                  nulls ++ [⟨lno, FKind.item⟩])
          else if top.kind = some EntKind.key then
            .error ((toString (lno + 1)).data ++ ": unexpected list item".data)
          else
            let nulls : List FTok :=
              match st.lastLno with
              | some l => [⟨l, .nullv⟩]
              | none => []
            pure ({ st with lastLno := some lno }, lno,
                  nulls ++ [⟨lno, FKind.item⟩])
      | .key k =>
        match st.stack with
        | [] => .error "TypeError".data
        | top :: rest =>
          if top.kind = none then
            let stack := { top with kind := some EntKind.key } :: rest
            let nulls : List FTok :=
              match st.lastLno with
              | some l => [⟨l, .nullv⟩]
              | none => []
            pure ({ stack := stack, lastLno := some lno }, lno,
                  nulls ++ [⟨lno, FKind.key k⟩])
          else if top.kind = some EntKind.item then
            .error ((toString (lno + 1)).data ++ ": unexpected map key".data)
          else
            let nulls : List FTok :=
              match st.lastLno with
              | some l => [⟨l, .nullv⟩]
              | none => []
            pure ({ st with lastLno := some lno }, lno,
                  nulls ++ [⟨lno, FKind.key k⟩])
      | .scalar v =>
        pure ({ st with lastLno := none }, lno, [⟨lno, FKind.scalar v⟩])
      | .multiline => do
        let (lno', content) ←
          consumeMultilineFF lines indent (lines.length + 1) lno
        -- the token object reads `lno` before `consumeMultiline` advances it
        pure ({ st with lastLno := none }, lno', [⟨lno, FKind.scalar content⟩]))
    let (st'', lno'', out') ← procLToks lines indent st' lno' ts
    return (st'', lno'', out ++ out')

/-- The main `while (lno < lines.length)` loop of the fail-fast `tokens`. -/
def tokensFFLoop (lines : List (List Char × List Char)) :
    Nat → Nat → OuterSt → Except (List Char) (OuterSt × Nat × List FTok)
  | 0, lno, st => .ok (st, lno, [])
  | fuel + 1, lno, st =>
    match lines.get? lno with
    | none => .ok (st, lno, [])
    | some (indent, content) => do
      let (stack', ltoks) ← tokenizeLineFF st.stack lno indent content
      let (st', lno', out) ← procLToks lines indent { st with stack := stack' } lno ltoks
      let (st'', lno'', out') ← tokensFFLoop lines fuel (lno' + 1) st'
      return (st'', lno'', out ++ out')

/-- The end-of-input flush of the fail-fast `tokens`: a pending `null`,
then one `outdent` per stack level above the root. -/
def flushFF (lno : Nat) (st : OuterSt) : List FTok :=
  (match st.lastLno with
   | some l => [⟨l, FKind.nullv⟩]
   | none => []) ++
  (st.stack.drop 1).map (fun _ => (⟨lno, FKind.outdent⟩ : FTok))

/-- `tokenizer.ts` `tokens`: the fail-fast raw token stream. -/
def tokensFF (input : List Char) : Except (List Char) (List FTok) := do
  let lines ← linesFF input
  let (st, lno, out) ←
    tokensFFLoop lines (lines.length + 1) 0
      { stack := [{ indent := [], kind := none }], lastLno := none }
  return out ++ flushFF lno st

/-- The dynamic JavaScript values produced by `parse`: maps keep insertion
order; a reviver may also return numbers. -/
inductive Value where
  | str (s : List Char)
  | nul
  | num (n : Int)
  | map (entries : List (List Char × Value))
  | list (elems : List Value)

/-- JavaScript object property assignment `result[key] = v`: overwrite in
place when the key exists, append otherwise. -/
def mapSet (entries : List (List Char × Value)) (k : List Char) (v : Value) :
    List (List Char × Value) :=
  match entries with
  | [] => [(k, v)]
  | (k', v') :: rest =>
    if k' = k then (k', v) :: rest else (k', v') :: mapSet rest k v

/-- The reviver argument of `parse` (`(key, value) => value'`). -/
def Reviver : Type := List Char → Value → Value

/-- `parser.ts` `sectionToValue`, with `fuel` bounding the loop and an
appended log of `(key, value)` reviver-call arguments (in call order).
Returns the section's value (`none` is JavaScript's `null`), the remaining
tokens, and the log. -/
def sectionToValue (rv : Reviver) :
    Nat → Option Value → Option (List Char) → List FTok →
    Option Value × List FTok × List (List Char × Value)
  | 0, acc, _, ts => (acc, ts, [])
  | _ + 1, acc, _, [] => (acc, [], [])
  | fuel + 1, acc, currentKey, t :: ts =>
    match t.kind with
    | .item =>
      sectionToValue rv fuel (some (acc.getD (.list []))) currentKey ts
    | .key k =>
      sectionToValue rv fuel (some (acc.getD (.map []))) (some k) ts
    | .scalar _ | .nullv =>
      let value : Value := match t.kind with | .scalar c => .str c | _ => .nul
      (match acc with
       | some (.list xs) =>
         let kk := (Nat.repr xs.length).data
         let (r, rest, log) :=
           sectionToValue rv fuel (some (.list (xs ++ [rv kk value]))) currentKey ts
         (r, rest, (kk, value) :: log)
       | some (.map es) =>
         match currentKey with
         | some k =>
           let (r, rest, log) :=
             sectionToValue rv fuel (some (.map (mapSet es k (rv k value)))) none ts
           (r, rest, (k, value) :: log)
         | none => sectionToValue rv fuel acc currentKey ts
       | _ => sectionToValue rv fuel acc currentKey ts)
    | .indent =>
      let (nested, ts', nlog) := sectionToValue rv fuel none none ts
      let nestedValue : Value := nested.getD .nul
      (match acc with
       | some (.list xs) =>
         let kk := (Nat.repr xs.length).data
         let (r, rest, log) :=
           sectionToValue rv fuel (some (.list (xs ++ [rv kk nestedValue]))) currentKey ts'
         (r, rest, nlog ++ (kk, nestedValue) :: log)
       | some (.map es) =>
         match currentKey with
         | some k =>
           let (r, rest, log) :=
             sectionToValue rv fuel (some (.map (mapSet es k (rv k nestedValue)))) none ts'
           (r, rest, nlog ++ (k, nestedValue) :: log)
         | none =>
           let (r, rest, log) := sectionToValue rv fuel acc currentKey ts'
           (r, rest, nlog ++ log)
       | _ =>
         let (r, rest, log) := sectionToValue rv fuel acc currentKey ts'
         (r, rest, nlog ++ log))
    | .outdent => (acc, ts, [])

/-- `parser.ts` `parse` with a reviver, also returning the reviver-call
log.  The thrown errors of the fail-fast tokenizer propagate. -/
def parseLog (input : List Char) (rv : Reviver) :
    Except (List Char) (Value × List (List Char × Value)) := do
  let toks ← tokensFF input
  let (res, _, log) := sectionToValue rv (toks.length + 1) none none toks
  let result := res.getD (.map [])
  return (rv [] result, log ++ [([], result)])

/-- `parser.ts` `parse` with a reviver. -/
def parse (input : List Char) (rv : Reviver) : Except (List Char) Value :=
  (parseLog input rv).map (·.1)

/-- `parser.ts` `parse` without a reviver: the default reviver is the
identity `(_, value) => value`. -/
def parseNR (input : List Char) : Except (List Char) Value :=
  parse input (fun _ v => v)

/-- The transform of the README/test example: map the scalar `"3s"` seen
under the key `"timeout"` to the number `3000`. -/
def timeoutReviver : Reviver := fun k v =>
  if k = "timeout".data then
    match v with
    | .str s => if s = "3s".data then .num 3000 else v
    | _ => v
  else v

/-- Is a value a `Map` or a `List`? -/
def Value.isMapOrList : Value → Prop
  | .map _ => True
  | .list _ => True
  | _ => False

mutual
/-- The transform discipline claimed by the spec, as a function: apply the
callback bottom-up over a parse tree — every child of a map entry or list
element is transformed before the entry itself, map entries with their key,
list elements with their decimal index — leaving the root untransformed
(the root receives the final empty-key call in `parse`). -/
def reviveBottomUp (rv : Reviver) : Value → Value
  | .map es => .map (reviveEntries rv es)
  | .list xs => .list (reviveElems rv 0 xs)
  | .str s => .str s
  | .nul => .nul
  | .num n => .num n
termination_by v => sizeOf v

/-- Bottom-up transform of a map's entries, each with its key. -/
def reviveEntries (rv : Reviver) :
    List (List Char × Value) → List (List Char × Value)
  | [] => []
  | (k, v) :: rest => (k, rv k (reviveBottomUp rv v)) :: reviveEntries rv rest
termination_by es => sizeOf es

/-- Bottom-up transform of a list's elements, each with its decimal
index starting at `i`. -/
def reviveElems (rv : Reviver) (i : Nat) : List Value → List Value
  | [] => []
  | v :: rest =>
    rv (Nat.repr i).data (reviveBottomUp rv v) :: reviveElems rv (i + 1) rest
termination_by xs => sizeOf xs
end

end ConlFF

namespace Conl

/-- The numeric value of a string of hexadecimal digits. -/
def hexVal (h : List Char) : Nat :=
  h.foldl (fun a c => a * 16 + ((hexDigitVal c).getD 0)) 0

end Conl

/-! ## Theorems -/

/-- C1: the claim says lexing/validation never aborts the whole document —
every decoding or structural error is carried on an emitted token and
tokens keep flowing.  This holds for the seven listed error classes
(second conjunct: one document exhibiting all of them, each error attached
to a token, with tokens still produced afterwards), but the tolerant
tokenizer CAN abort: a quoted escape whose brace content parses to a
negative number (e.g. `\{-1}`) passes every range check and then
`String.fromCodePoint` throws an uncaught `RangeError` (first conjunct),
contradicting the documented tolerance. -/
theorem c1_error_tolerance_and_crash :
    Conl.conlTokens "key = \"\\{-1}\"".data =
      .error "RangeError: Invalid code point -1".data
    ∧ Conl.conlTokens
        "a = \"x\nb = \"y\"z\"\nc = \"\\q\"\n  d\ne = \"\"\"\nf = 1\n= g\nh = 2".data =
      .ok
        [⟨1, .MapKey, "a".data, none⟩,
         ⟨1, .Scalar, [], some "unclosed quotes".data⟩,
         ⟨2, .MapKey, "b".data, none⟩,
         ⟨2, .Scalar, [], some "characters after quotes".data⟩,
         ⟨3, .MapKey, "c".data, none⟩,
         ⟨3, .Scalar, [], some "invalid escape code: \\q".data⟩,
         ⟨4, .MapKey, [], some "unexpected indent".data⟩,
         ⟨4, .Indent, "  ".data, none⟩,
         ⟨4, .MapKey, "d".data, none⟩,
         ⟨5, .NoValue, [], none⟩,
         ⟨5, .Outdent, [], none⟩,
         ⟨5, .MapKey, "e".data, none⟩,
         ⟨5, .MultilineHint, [], none⟩,
         ⟨5, .MultilineScalar, [], some "missing multiline value".data⟩,
         ⟨6, .MapKey, "f".data, none⟩,
         ⟨6, .Scalar, "1".data, none⟩,
         ⟨7, .MapKey, [], some "unexpected list item".data⟩,
         ⟨7, .Scalar, "g".data, none⟩,
         ⟨8, .MapKey, "h".data, none⟩,
         ⟨8, .Scalar, "2".data, none⟩] := by
  constructor <;> rfl

/-- C3 (counterexample): the claim that within every section the
`MapKey`/`ListItem` tokens all share the kind fixed by the first such
token, deviations being flagged `unexpected list item`/`unexpected map
key`, fails on `"  a\n= b"`: the root section's first entry token is the
`MapKey` synthesized for `unexpected indent`, which does not register a
section kind, so the later `ListItem` is emitted unflagged — the section
mixes both kinds. -/
theorem c3_mixed_section_counterexample :
    Conl.conlTokens "  a\n= b".data =
      .ok
        [⟨1, .MapKey, [], some "unexpected indent".data⟩,
         ⟨1, .Indent, "  ".data, none⟩,
         ⟨1, .MapKey, "a".data, none⟩,
         ⟨2, .NoValue, [], none⟩,
         ⟨2, .Outdent, [], none⟩,
         ⟨2, .ListItem, [], none⟩,
         ⟨2, .Scalar, "b".data, none⟩]
    ∧ Conl.secCheckStrict [none]
        [⟨1, .MapKey, [], some "unexpected indent".data⟩,
         ⟨1, .Indent, "  ".data, none⟩,
         ⟨1, .MapKey, "a".data, none⟩,
         ⟨2, .NoValue, [], none⟩,
         ⟨2, .Outdent, [], none⟩,
         ⟨2, .ListItem, [], none⟩,
         ⟨2, .Scalar, "b".data, none⟩] = false := by
  constructor <;> rfl

/-- C4: `parse('= \"\"\"\n c\n =')` returns the one-element list whose sole
element is the string `c`, newline, `=` — the multiline body is the line
`c` followed by a line `=`, with trailing whitespace trimmed. -/
theorem c4_parse_multiline_example :
    ConlFF.parseNR "= \"\"\"\n c\n =".data =
      .ok (.list [.str "c\n=".data]) := by
  rfl

namespace ConlFF

/-- `reviveElems` preserves length. -/
theorem reviveElems_length (rv : Reviver) : ∀ (xs : List Value) (i : Nat),
    (reviveElems rv i xs).length = xs.length := by
  intro xs
  induction xs with
  | nil => intro i; simp [reviveElems]
  | cons v rest ih => intro i; simp [reviveElems, ih]

/-- `reviveElems` over an append. -/
theorem reviveElems_append (rv : Reviver) : ∀ (xs ys : List Value) (i : Nat),
    reviveElems rv i (xs ++ ys) =
      reviveElems rv i xs ++ reviveElems rv (i + xs.length) ys := by
  intro xs
  induction xs with
  | nil => intro ys i; simp [reviveElems]
  | cons v rest ih =>
    intro ys i
    have hn : i + 1 + rest.length = i + (rest.length + 1) := by omega
    rw [List.cons_append, reviveElems, ih, hn]
    rw [reviveElems]
    simp

/-- `reviveEntries` commutes with JavaScript property assignment. -/
theorem reviveEntries_mapSet (rv : Reviver) :
    ∀ (es : List (List Char × Value)) (k : List Char) (v : Value),
    reviveEntries rv (mapSet es k v) =
      mapSet (reviveEntries rv es) k (rv k (reviveBottomUp rv v)) := by
  intro es
  induction es with
  | nil => intro k v; simp [mapSet, reviveEntries]
  | cons e rest ih =>
    intro k v
    obtain ⟨k', v'⟩ := e
    by_cases hk : k' = k
    · subst hk
      simp [mapSet, reviveEntries]
    · simp [mapSet, hk, reviveEntries, ih]

/-- `sectionToValue` with an arbitrary reviver refines the identity run:
the remaining tokens agree, the accumulated value is the bottom-up
transform of the identity value, and the reviver-call log has the same
keys in the same order, with each logged value the bottom-up transform of
the identity run's logged value. -/
theorem sectionToValue_revive (rv : Reviver) :
    ∀ (fuel : Nat) (ts : List FTok) (acc : Option Value)
      (key : Option (List Char)),
      sectionToValue rv fuel (acc.map (reviveBottomUp rv)) key ts =
        ((sectionToValue (fun _ v => v) fuel acc key ts).1.map
            (reviveBottomUp rv),
         (sectionToValue (fun _ v => v) fuel acc key ts).2.1,
         (sectionToValue (fun _ v => v) fuel acc key ts).2.2.map
           (fun e => (e.1, reviveBottomUp rv e.2))) := by
  intro fuel
  induction fuel with
  | zero => intro ts acc key; simp [sectionToValue]
  | succ fuel ih =>
    intro ts acc key
    cases ts with
    | nil => simp [sectionToValue]
    | cons t rest =>
      obtain ⟨lno, k⟩ := t
      cases k with
      | item =>
        cases acc with
        | none =>
          simp only [sectionToValue, Option.map_none', Option.getD_none]
          have h2 := ih rest (some (Value.list [])) key
          simp only [Option.map_some', reviveBottomUp, reviveElems] at h2
          exact h2
        | some a =>
          simp only [sectionToValue, Option.map_some', Option.getD_some]
          have h2 := ih rest (some a) key
          simp only [Option.map_some'] at h2
          exact h2
      | key kk =>
        cases acc with
        | none =>
          simp only [sectionToValue, Option.map_none', Option.getD_none]
          have h2 := ih rest (some (Value.map [])) (some kk)
          simp only [Option.map_some', reviveBottomUp, reviveEntries] at h2
          exact h2
        | some a =>
          simp only [sectionToValue, Option.map_some', Option.getD_some]
          have h2 := ih rest (some a) (some kk)
          simp only [Option.map_some'] at h2
          exact h2
      | outdent => simp [sectionToValue]
      | scalar c =>
        cases acc with
        | none =>
          simp only [sectionToValue, Option.map_none']
          have h2 := ih rest none key
          simp only [Option.map_none'] at h2
          exact h2
        | some a =>
          cases a with
          | str s =>
            simp only [sectionToValue, Option.map_some', reviveBottomUp]
            have h2 := ih rest (some (Value.str s)) key
            simp only [Option.map_some', reviveBottomUp] at h2
            exact h2
          | nul =>
            simp only [sectionToValue, Option.map_some', reviveBottomUp]
            have h2 := ih rest (some Value.nul) key
            simp only [Option.map_some', reviveBottomUp] at h2
            exact h2
          | num n =>
            simp only [sectionToValue, Option.map_some', reviveBottomUp]
            have h2 := ih rest (some (Value.num n)) key
            simp only [Option.map_some', reviveBottomUp] at h2
            exact h2
          | list xs =>
            simp only [sectionToValue, Option.map_some', reviveBottomUp,
              reviveElems_length]
            have h2 := ih rest (some (Value.list (xs ++ [Value.str c]))) key
            simp only [Option.map_some', reviveBottomUp, reviveElems_append,
              reviveElems, Nat.zero_add, List.append_nil] at h2
            rw [h2]
            simp [reviveBottomUp]
          | map es =>
            cases key with
            | none =>
              simp only [sectionToValue, Option.map_some', reviveBottomUp]
              have h2 := ih rest (some (Value.map es)) none
              simp only [Option.map_some', reviveBottomUp] at h2
              exact h2
            | some kk =>
              simp only [sectionToValue, Option.map_some', reviveBottomUp]
              have h2 := ih rest (some (Value.map (mapSet es kk (Value.str c)))) none
              simp only [Option.map_some', reviveBottomUp,
                reviveEntries_mapSet] at h2
              rw [h2]
              simp [reviveBottomUp]
      | nullv =>
        cases acc with
        | none =>
          simp only [sectionToValue, Option.map_none']
          have h2 := ih rest none key
          simp only [Option.map_none'] at h2
          exact h2
        | some a =>
          cases a with
          | str s =>
            simp only [sectionToValue, Option.map_some', reviveBottomUp]
            have h2 := ih rest (some (Value.str s)) key
            simp only [Option.map_some', reviveBottomUp] at h2
            exact h2
          | nul =>
            simp only [sectionToValue, Option.map_some', reviveBottomUp]
            have h2 := ih rest (some Value.nul) key
            simp only [Option.map_some', reviveBottomUp] at h2
            exact h2
          | num n =>
            simp only [sectionToValue, Option.map_some', reviveBottomUp]
            have h2 := ih rest (some (Value.num n)) key
            simp only [Option.map_some', reviveBottomUp] at h2
            exact h2
          | list xs =>
            simp only [sectionToValue, Option.map_some', reviveBottomUp,
              reviveElems_length]
            have h2 := ih rest (some (Value.list (xs ++ [Value.nul]))) key
            simp only [Option.map_some', reviveBottomUp, reviveElems_append,
              reviveElems, Nat.zero_add, List.append_nil] at h2
            rw [h2]
            simp [reviveBottomUp]
          | map es =>
            cases key with
            | none =>
              simp only [sectionToValue, Option.map_some', reviveBottomUp]
              have h2 := ih rest (some (Value.map es)) none
              simp only [Option.map_some', reviveBottomUp] at h2
              exact h2
            | some kk =>
              simp only [sectionToValue, Option.map_some', reviveBottomUp]
              have h2 := ih rest (some (Value.map (mapSet es kk Value.nul))) none
              simp only [Option.map_some', reviveBottomUp,
                reviveEntries_mapSet] at h2
              rw [h2]
              simp [reviveBottomUp]
      | indent =>
        have h0 := ih rest none none
        simp only [Option.map_none'] at h0
        cases acc with
        | none =>
          simp only [sectionToValue, Option.map_none']
          rw [h0]
          have h2 := ih (sectionToValue (fun _ v => v) fuel none none rest).2.1
            none key
          simp only [Option.map_none'] at h2
          rw [h2]
          simp
        | some a =>
          cases a with
          | str s =>
            simp only [sectionToValue, Option.map_some', reviveBottomUp]
            rw [h0]
            have h2 := ih (sectionToValue (fun _ v => v) fuel none none rest).2.1
              (some (Value.str s)) key
            simp only [Option.map_some', reviveBottomUp] at h2
            rw [h2]
            simp
          | nul =>
            simp only [sectionToValue, Option.map_some', reviveBottomUp]
            rw [h0]
            have h2 := ih (sectionToValue (fun _ v => v) fuel none none rest).2.1
              (some Value.nul) key
            simp only [Option.map_some', reviveBottomUp] at h2
            rw [h2]
            simp
          | num n =>
            simp only [sectionToValue, Option.map_some', reviveBottomUp]
            rw [h0]
            have h2 := ih (sectionToValue (fun _ v => v) fuel none none rest).2.1
              (some (Value.num n)) key
            simp only [Option.map_some', reviveBottomUp] at h2
            rw [h2]
            simp
          | list xs =>
            simp only [sectionToValue, Option.map_some', reviveBottomUp,
              reviveElems_length]
            rw [h0]
            cases hE : (sectionToValue (fun _ v => v) fuel none none rest).1 with
            | none =>
              have h2 := ih (sectionToValue (fun _ v => v) fuel none none rest).2.1
                (some (Value.list (xs ++ [Value.nul]))) key
              simp only [Option.map_some', reviveBottomUp, reviveElems_append,
                reviveElems, Nat.zero_add, List.append_nil] at h2
              simp only [Option.map_none', Option.getD_none, reviveBottomUp]
              rw [h2]
              simp [reviveBottomUp]
            | some w =>
              have h2 := ih (sectionToValue (fun _ v => v) fuel none none rest).2.1
                (some (Value.list (xs ++ [w]))) key
              simp only [Option.map_some', reviveBottomUp, reviveElems_append,
                reviveElems, Nat.zero_add, List.append_nil] at h2
              simp only [Option.map_some', Option.getD_some]
              rw [h2]
              simp [reviveBottomUp]
          | map es =>
            cases key with
            | none =>
              simp only [sectionToValue, Option.map_some', reviveBottomUp]
              rw [h0]
              have h2 := ih (sectionToValue (fun _ v => v) fuel none none rest).2.1
                (some (Value.map es)) none
              simp only [Option.map_some', reviveBottomUp] at h2
              rw [h2]
              simp
            | some kk =>
              simp only [sectionToValue, Option.map_some', reviveBottomUp]
              rw [h0]
              cases hE : (sectionToValue (fun _ v => v) fuel none none rest).1 with
              | none =>
                have h2 := ih (sectionToValue (fun _ v => v) fuel none none rest).2.1
                  (some (Value.map (mapSet es kk Value.nul))) none
                simp only [Option.map_some', reviveBottomUp,
                  reviveEntries_mapSet] at h2
                simp only [Option.map_none', Option.getD_none, reviveBottomUp]
                rw [h2]
                simp [reviveBottomUp]
              | some w =>
                have h2 := ih (sectionToValue (fun _ v => v) fuel none none rest).2.1
                  (some (Value.map (mapSet es kk w))) none
                simp only [Option.map_some', reviveBottomUp,
                  reviveEntries_mapSet] at h2
                simp only [Option.map_some', Option.getD_some]
                rw [h2]
                simp [reviveBottomUp]

/-- C8: for every input and transform, `parse`'s reviver discipline refines
the identity run — the callback receives the same keys in the same
(document) order as the identity run, each logged value is the bottom-up
transform of the identity run's value at that call (children transformed
before the containing Map/List is assembled, the assembled parent logged
afterwards), the final call gets the empty key and the assembled document,
and the result is that final call's return value; in particular the
`listen`/`timeout = 3s` example with the `3s ↦ 3000` transform. -/
theorem c8_reviver_discipline :
    (∀ (input : List Char) (rv : Reviver) (v : Value)
       (log : List (List Char × Value)),
      parseLog input (fun _ w => w) = .ok (v, log) →
      parseLog input rv =
        .ok (rv [] (reviveBottomUp rv v),
             log.map (fun e => (e.1, reviveBottomUp rv e.2)))) ∧
    parseLog "listen\n  timeout = 3s".data timeoutReviver =
      .ok
        (.map [("listen".data, .map [("timeout".data, .num 3000)])],
         [("timeout".data, .str "3s".data),
          ("listen".data, .map [("timeout".data, .num 3000)]),
          ([], .map [("listen".data, .map [("timeout".data, .num 3000)])])]) := by
  constructor
  · intro input rv v log h
    unfold parseLog at h ⊢
    simp only [bind, Except.bind] at h ⊢
    cases htoks : tokensFF input with
    | error e =>
      rw [htoks] at h
      simp at h
    | ok toks =>
      rw [htoks] at h
      dsimp only at h ⊢
      simp only [pure, Except.pure, Except.ok.injEq, Prod.mk.injEq] at h
      obtain ⟨hv, hlog⟩ := h
      have hsec := sectionToValue_revive rv (toks.length + 1) toks none none
      simp only [Option.map_none'] at hsec
      rw [hsec]
      subst hv
      subst hlog
      cases hres : (sectionToValue (fun _ w => w) (toks.length + 1)
          none none toks).1 with
      | none => simp [reviveBottomUp, reviveEntries, pure, Except.pure]
      | some w => simp [pure, Except.pure]
  · rfl

/-- Witness for `c8_reviver_discipline` at the `listen`/`timeout` example:
the transform run is the bottom-up transform of the identity run. -/
theorem c8_reviver_discipline_witness :
    parseLog "listen\n  timeout = 3s".data timeoutReviver =
      .ok
        (timeoutReviver [] (reviveBottomUp timeoutReviver
           (.map [("listen".data, .map [("timeout".data, .str "3s".data)])])),
         ([(("timeout".data : List Char), (.str "3s".data : Value)),
           ("listen".data, .map [("timeout".data, .str "3s".data)]),
           ([], .map [("listen".data,
                       .map [("timeout".data, .str "3s".data)])])]).map
           (fun e => (e.1, reviveBottomUp timeoutReviver e.2))) :=
  c8_reviver_discipline.1 "listen\n  timeout = 3s".data timeoutReviver
    (.map [("listen".data, .map [("timeout".data, .str "3s".data)])])
    [("timeout".data, .str "3s".data),
     ("listen".data, .map [("timeout".data, .str "3s".data)]),
     ([], .map [("listen".data, .map [("timeout".data, .str "3s".data)])])]
    rfl

end ConlFF

namespace Conl

theorem hexDigit_toNat {c : Char} (h : (hexDigitVal c).isSome) :
    (0x30 ≤ c.toNat ∧ c.toNat ≤ 0x39) ∨ (0x61 ≤ c.toNat ∧ c.toNat ≤ 0x66) ∨
    (0x41 ≤ c.toNat ∧ c.toNat ≤ 0x46) := by
  unfold hexDigitVal at h
  split_ifs at h with h1 h2 h3
  · exact Or.inl h1
  · exact Or.inr (Or.inl h2)
  · exact Or.inr (Or.inr h3)
  · simp at h

theorem hexDigit_not_jsWs {c : Char} (h : (hexDigitVal c).isSome) :
    isJsWs c = false := by
  have hb := hexDigit_toNat h
  unfold isJsWs
  simp only [List.contains_cons, List.contains_nil, Bool.or_eq_false_iff,
    beq_eq_false_iff_ne, ne_eq, decide_eq_false_iff_not, Bool.and_eq_false_iff, not_le]
  repeat' apply And.intro
  all_goals first | trivial | omega

theorem hexDigit_ne {c d : Char} (h : (hexDigitVal c).isSome)
    (hd : d.toNat < 0x30 ∨ (0x39 < d.toNat ∧ d.toNat < 0x41) ∨
          (0x46 < d.toNat ∧ d.toNat < 0x61) ∨ 0x66 < d.toNat) : c ≠ d := by
  intro he
  subst he
  rcases hexDigit_toNat h with ⟨a, b⟩ | ⟨a, b⟩ | ⟨a, b⟩ <;> omega

theorem jsParseIntHex_hexdigits {h : List Char} (hne : h ≠ [])
    (hhex : ∀ c ∈ h, (hexDigitVal c).isSome) :
    jsParseIntHex h = some ((hexVal h : Nat) : Int) := by
  obtain ⟨c, t, rfl⟩ := List.exists_cons_of_ne_nil hne
  have hc := hhex c (by simp)
  have hminus : c ≠ '-' := hexDigit_ne hc (by left; decide)
  have hplus : c ≠ '+' := hexDigit_ne hc (by left; decide)
  have htake : List.takeWhile (fun c => (hexDigitVal c).isSome) (c :: t) = c :: t :=
    List.takeWhile_eq_self_iff.mpr hhex
  cases t with
  | nil =>
    simp [jsParseIntHex, List.dropWhile_cons, hexDigit_not_jsWs hc, hminus, hplus,
      htake, hexVal]
  | cons c2 t' =>
    have hc2 := hhex c2 (by simp)
    have hx2 : c2 ≠ 'x' := hexDigit_ne hc2 (by right; right; right; decide)
    have hX2 : c2 ≠ 'X' := hexDigit_ne hc2 (by right; right; left; decide)
    simp [jsParseIntHex, List.dropWhile_cons, hexDigit_not_jsWs hc, hminus, hplus,
      hx2, hX2, htake, hexVal]

end Conl

theorem not_hexDigit_rbrace {c : Char} (h : (Conl.hexDigitVal c).isSome) :
    ¬ (c = '}') := Conl.hexDigit_ne h (by right; right; right; decide)

theorem decodeLiteralFF_hexEscape (lno : Nat) {h : List Char} (hne : h ≠ [])
    (hhex : ∀ c ∈ h, (Conl.hexDigitVal c).isSome) :
    ConlFF.decodeLiteralFF lno ('"' :: '\\' :: '{' :: (h ++ ['}', '"'])) =
      if h.length > 8 ∨ Conl.hexVal h > 0x10FFFF ∨
          (0xD800 ≤ Conl.hexVal h ∧ Conl.hexVal h ≤ 0xDFFF) then
        .error ((toString (lno + 1)).data ++ ": invalid escape code: ".data ++
          ('\\' :: '{' :: h ++ ['}']))
      else .ok [Char.ofNat (Conl.hexVal h)] := by
  have hlast : ('"' :: '\\' :: '{' :: (h ++ ['}', '"'])).getLast? = some '"' := by
    rw [show '"' :: '\\' :: '{' :: (h ++ ['}', '"']) =
         ('"' :: '\\' :: '{' :: h ++ ['}']) ++ ['"'] by simp]
    exact List.getLast?_concat _
  have hinner : ConlFF.innerSubstring ('"' :: '\\' :: '{' :: (h ++ ['}', '"'])) =
      '\\' :: '{' :: (h ++ ['}']) := by
    unfold ConlFF.innerSubstring
    rw [if_neg (by simp)]
    rw [show ('"' :: '\\' :: '{' :: (h ++ ['}', '"'])).drop 1 =
         ('\\' :: '{' :: h ++ ['}']) ++ ['"'] by simp]
    rw [List.dropLast_concat]
    simp
  have hfind : (h ++ ['}']).findIdx? (fun c => c = '}') = some h.length := by
    rw [List.findIdx?_append]
    rw [List.findIdx?_eq_none_iff.mpr (fun x hx => by
      simp only [decide_eq_false_iff_not]
      exact not_hexDigit_rbrace (hhex x hx))]
    simp [List.findIdx?_cons]
  have hnil : ∀ f, ConlFF.ffDecodeLoop lno f [] = .ok [] := by
    intro f; cases f <;> rfl
  have htakeall : (h ++ ['}']).take (h.length + 1) = h ++ ['}'] := by
    rw [show h.length + 1 = (h ++ ['}']).length by simp, List.take_length]
  have hdropall : (h ++ ['}']).drop (h.length + 1) = [] := by
    rw [show h.length + 1 = (h ++ ['}']).length by simp, List.drop_length]
  have hfuel : ∀ fuel, ConlFF.ffDecodeLoop lno (fuel + 1) ('\\' :: '{' :: (h ++ ['}'])) =
      if h.length > 8 ∨ Conl.hexVal h > 0x10FFFF ∨
          (0xD800 ≤ Conl.hexVal h ∧ Conl.hexVal h ≤ 0xDFFF) then
        .error ((toString (lno + 1)).data ++ ": invalid escape code: ".data ++
          ('\\' :: '{' :: h ++ ['}']))
      else .ok [Char.ofNat (Conl.hexVal h)] := by
    intro fuel
    rw [ConlFF.ffDecodeLoop]
    rw [if_neg (by decide), if_pos rfl]
    have hcnd : ('{' : Char) = '{' ∧
        ((h ++ ['}']).findIdx? (fun c => c = '}')).isSome :=
      ⟨rfl, by rw [hfind]; rfl⟩
    rw [if_pos hcnd]
    simp only [hfind, Option.getD_some, List.take_left]
    rw [Conl.jsParseIntHex_hexdigits hne hhex]
    simp only []
    by_cases hcond : h.length > 8 ∨ Conl.hexVal h > 0x10FFFF ∨
        (0xD800 ≤ Conl.hexVal h ∧ Conl.hexVal h ≤ 0xDFFF)
    · have hint : h.length > 8 ∨ ((Conl.hexVal h : Int) > 1114111 ∨
          (55296 ≤ (Conl.hexVal h : Int) ∧ (Conl.hexVal h : Int) ≤ 57343)) := by omega
      rw [if_pos hint, if_pos hcond, htakeall]
      rfl
    · have hint : ¬(h.length > 8 ∨ ((Conl.hexVal h : Int) > 1114111 ∨
          (55296 ≤ (Conl.hexVal h : Int) ∧ (Conl.hexVal h : Int) ≤ 57343))) := by omega
      rw [if_neg hint, if_neg hcond]
      unfold Conl.fromCodePoint
      rw [if_pos (by constructor <;> omega)]
      rw [hdropall]
      rw [hnil]
      show Except.ok [Char.ofNat (((Conl.hexVal h : Nat) : Int)).toNat] = _
      rw [Int.toNat_natCast]
  rw [ConlFF.decodeLiteralFF]
  rw [if_pos (show ('"' :: '\\' :: '{' :: (h ++ ['}', '"'])).head? = some '"' from rfl)]
  rw [if_neg (by simp [hlast]), hinner]
  show ConlFF.ffDecodeLoop lno (('\\' :: '{' :: (h ++ ['}'])).length + 1) _ = _
  have : ('\\' :: '{' :: (h ++ ['}'])).length + 1 = (h.length + 3) + 1 := by simp
  rw [this, hfuel]

/-- C7: decoding a quoted literal maps `\{HEX}` (1–8 hex digits) to the
Unicode scalar value `HEX` (first conjunct), and rejects as an invalid
escape any surrogate code point in `0xD800`–`0xDFFF` and any value above
`0x10FFFF` (second conjunct); in particular `parse('key = "\{1F600}"')`
yields the map `{"key": "😀"}` (third conjunct). -/
theorem c7_unicode_escape (lno : Nat) (h : List Char)
    (hlen : 1 ≤ h.length ∧ h.length ≤ 8)
    (hhex : ∀ c ∈ h, (Conl.hexDigitVal c).isSome) :
    (Conl.hexVal h ≤ 0x10FFFF ∧ ¬(0xD800 ≤ Conl.hexVal h ∧ Conl.hexVal h ≤ 0xDFFF) →
      ConlFF.decodeLiteralFF lno ('"' :: '\\' :: '{' :: (h ++ ['}', '"'])) =
        .ok [Char.ofNat (Conl.hexVal h)])
    ∧ ((0xD800 ≤ Conl.hexVal h ∧ Conl.hexVal h ≤ 0xDFFF) ∨ 0x10FFFF < Conl.hexVal h →
      ConlFF.decodeLiteralFF lno ('"' :: '\\' :: '{' :: (h ++ ['}', '"'])) =
        .error ((toString (lno + 1)).data ++ ": invalid escape code: ".data ++
          ('\\' :: '{' :: h ++ ['}'])))
    ∧ ConlFF.parseNR "key = \"\\{1F600}\"".data =
        .ok (.map [("key".data, .str "😀".data)]) := by
  have hne : h ≠ [] := by
    intro e
    rw [e] at hlen
    simp at hlen
  refine ⟨?_, ?_, by rfl⟩
  · rintro ⟨h1, h2⟩
    rw [decodeLiteralFF_hexEscape lno hne hhex]
    have hno : ¬(h.length > 8 ∨ Conl.hexVal h > 0x10FFFF ∨
        (0xD800 ≤ Conl.hexVal h ∧ Conl.hexVal h ≤ 0xDFFF)) := by
      push_neg
      exact ⟨by omega, by omega, fun a => by omega⟩
    rw [if_neg hno]
  · intro hbad
    rw [decodeLiteralFF_hexEscape lno hne hhex]
    have hyes : h.length > 8 ∨ Conl.hexVal h > 0x10FFFF ∨
        (0xD800 ≤ Conl.hexVal h ∧ Conl.hexVal h ≤ 0xDFFF) := by
      rcases hbad with a | a
      · right; right; exact a
      · right; left; omega
    rw [if_pos hyes]

/-- Witness for `c7_unicode_escape` at the concrete escape `1F600`. -/
theorem c7_unicode_escape_witness :
    ConlFF.decodeLiteralFF 0 ('"' :: '\\' :: '{' :: ("1F600".data ++ ['}', '"'])) =
      .ok [Char.ofNat (Conl.hexVal "1F600".data)] :=
  (c7_unicode_escape 0 "1F600".data (by decide) (by decide)).1 (by decide)

theorem sectionToValue_fst_shape (rv : ConlFF.Reviver) :
    ∀ (fuel : Nat) (acc : Option ConlFF.Value) (key : Option (List Char))
      (ts : List ConlFF.FTok),
      (∀ w, acc = some w → w.isMapOrList) →
      ∀ v, (ConlFF.sectionToValue rv fuel acc key ts).1 = some v → v.isMapOrList := by
  intro fuel
  induction fuel with
  | zero =>
    intro acc key ts hacc v hv
    exact hacc v (by simpa [ConlFF.sectionToValue] using hv)
  | succ fuel ih =>
    intro acc key ts hacc v hv
    cases ts with
    | nil => exact hacc v (by simpa [ConlFF.sectionToValue] using hv)
    | cons t rest =>
      obtain ⟨lno, k⟩ := t
      have hlist : ∀ (xs : List ConlFF.Value) (w : ConlFF.Value),
          some (ConlFF.Value.list xs) = some w → w.isMapOrList := by
        rintro xs w hw; cases hw; trivial
      have hmap : ∀ (es : List (List Char × ConlFF.Value)) (w : ConlFF.Value),
          some (ConlFF.Value.map es) = some w → w.isMapOrList := by
        rintro es w hw; cases hw; trivial
      cases k with
      | item =>
        cases acc with
        | none =>
          simp only [ConlFF.sectionToValue] at hv
          exact ih _ _ _ (hlist []) v hv
        | some a =>
          simp only [ConlFF.sectionToValue, Option.getD_some] at hv
          exact ih _ _ _ (by rintro w hw; cases hw; exact hacc _ rfl) v hv
      | key kk =>
        cases acc with
        | none =>
          simp only [ConlFF.sectionToValue] at hv
          exact ih _ _ _ (hmap []) v hv
        | some a =>
          simp only [ConlFF.sectionToValue, Option.getD_some] at hv
          exact ih _ _ _ (by rintro w hw; cases hw; exact hacc _ rfl) v hv
      | scalar c =>
        cases acc with
        | none =>
          simp only [ConlFF.sectionToValue] at hv
          exact ih _ _ _ hacc v hv
        | some a =>
          cases a with
          | list xs =>
            simp only [ConlFF.sectionToValue] at hv
            exact ih _ _ _ (hlist _) v hv
          | map es =>
            cases key with
            | none =>
              simp only [ConlFF.sectionToValue] at hv
              exact ih _ _ _ hacc v hv
            | some kk =>
              simp only [ConlFF.sectionToValue] at hv
              exact ih _ _ _ (hmap _) v hv
          | str s =>
            simp only [ConlFF.sectionToValue] at hv
            exact ih _ _ _ hacc v hv
          | nul =>
            simp only [ConlFF.sectionToValue] at hv
            exact ih _ _ _ hacc v hv
          | num n =>
            simp only [ConlFF.sectionToValue] at hv
            exact ih _ _ _ hacc v hv
      | nullv =>
        cases acc with
        | none =>
          simp only [ConlFF.sectionToValue] at hv
          exact ih _ _ _ hacc v hv
        | some a =>
          cases a with
          | list xs =>
            simp only [ConlFF.sectionToValue] at hv
            exact ih _ _ _ (hlist _) v hv
          | map es =>
            cases key with
            | none =>
              simp only [ConlFF.sectionToValue] at hv
              exact ih _ _ _ hacc v hv
            | some kk =>
              simp only [ConlFF.sectionToValue] at hv
              exact ih _ _ _ (hmap _) v hv
          | str s =>
            simp only [ConlFF.sectionToValue] at hv
            exact ih _ _ _ hacc v hv
          | nul =>
            simp only [ConlFF.sectionToValue] at hv
            exact ih _ _ _ hacc v hv
          | num n =>
            simp only [ConlFF.sectionToValue] at hv
            exact ih _ _ _ hacc v hv
      | indent =>
        cases acc with
        | none =>
          simp only [ConlFF.sectionToValue] at hv
          exact ih _ _ _ hacc v hv
        | some a =>
          cases a with
          | list xs =>
            simp only [ConlFF.sectionToValue] at hv
            exact ih _ _ _ (hlist _) v hv
          | map es =>
            cases key with
            | none =>
              simp only [ConlFF.sectionToValue] at hv
              exact ih _ _ _ hacc v hv
            | some kk =>
              simp only [ConlFF.sectionToValue] at hv
              exact ih _ _ _ (hmap _) v hv
          | str s =>
            simp only [ConlFF.sectionToValue] at hv
            exact ih _ _ _ hacc v hv
          | nul =>
            simp only [ConlFF.sectionToValue] at hv
            exact ih _ _ _ hacc v hv
          | num n =>
            simp only [ConlFF.sectionToValue] at hv
            exact ih _ _ _ hacc v hv
      | outdent =>
        simp only [ConlFF.sectionToValue] at hv
        exact hacc v hv

/-- C10: `parse` without a transform returns a Map or a List, never a bare
scalar or null; the empty document and a comments/blank-only document give
the empty Map. -/
theorem c10_parse_shape :
    (∀ input v, ConlFF.parseNR input = .ok v → v.isMapOrList)
    ∧ ConlFF.parseNR [] = .ok (.map [])
    ∧ ConlFF.parseNR "; comment\n\n".data = .ok (.map []) := by
  refine ⟨?_, by rfl, by rfl⟩
  intro input v hv
  unfold ConlFF.parseNR ConlFF.parse ConlFF.parseLog at hv
  cases htoks : ConlFF.tokensFF input with
  | error e =>
    rw [htoks] at hv
    simp only [bind, Except.bind, Except.map] at hv
    exact absurd hv (by simp)
  | ok toks =>
    rw [htoks] at hv
    simp only [bind, Except.bind, pure, Except.pure, Except.map, Except.ok.injEq] at hv
    cases hres : (ConlFF.sectionToValue (fun _ v => v) (toks.length + 1) none none toks).1 with
    | none =>
      rw [hres] at hv
      simp only [Option.getD_none] at hv
      cases hv
      trivial
    | some w =>
      rw [hres] at hv
      simp only [Option.getD_some] at hv
      subst hv
      exact sectionToValue_fst_shape _ _ _ _ _ (fun u hu => by cases hu) _ hres

/-- Witness for `c10_parse_shape` at `a = b`. -/
theorem c10_parse_shape_witness :
    ConlFF.Value.isMapOrList (.map [("a".data, .str "b".data)]) :=
  c10_parse_shape.1 "a = b".data _ (by rfl)

theorem splitFirstLine_eq_self {s : List Char}
    (h : ∀ ch ∈ s, ch ≠ '\n' ∧ ch ≠ '\r') : Conl.splitFirstLine s = (s, none) := by
  induction s with
  | nil => rfl
  | cons a t ih =>
    have ha := h a (by simp)
    rw [Conl.splitFirstLine.eq_def]
    simp only []
    rw [if_neg ha.2, if_neg ha.1]
    rw [ih (fun ch hch => h ch (by simp [hch]))]

theorem linesU_single {s : List Char} (hne : s ≠ [])
    (h : ∀ ch ∈ s, ch ≠ '\n' ∧ ch ≠ '\r') : Conl.linesU s = [(1, s)] := by
  unfold Conl.linesU
  rw [if_neg hne]
  rw [Conl.linesUCore]
  rw [splitFirstLine_eq_self h]
  simp [hne]

theorem c9_conjC (c : List Char) (hc : ∀ ch ∈ c, ch ≠ '\n' ∧ ch ≠ '\r') :
    Conl.conlTokens (';' :: c) =
      .ok [⟨1, .Comment, c.takeWhile (fun ch => !Conl.isLineTerm ch), none⟩] := by
  have hlines : Conl.linesU (';' :: c) = [(1, ';' :: c)] :=
    linesU_single (by simp) (by
      intro ch hch
      rcases List.mem_cons.mp hch with h1 | h2
      · subst h1; constructor <;> decide
      · exact hc ch h2)
  unfold Conl.conlTokens Conl.tokenizeT Conl.lexAll
  rw [hlines]
  simp +decide [Conl.lexLines, Conl.lexLine, Conl.lexMain, Conl.lexValue, Conl.afterKeyRest, Conl.initLexState, Conl.trimLeft,
    Conl.cutPrefix, Conl.tokenizeFlush, Conl.vRun, Conl.vStep, Conl.vFlush,
    Conl.checkUtf8, bind, Except.bind, pure, Except.pure, Conl.isHWs,
    List.isPrefixOf, List.takeWhile_cons]

theorem findIdx?_offset_le {α : Type} {p : α → Bool} :
    ∀ (l : List α) (i j : Nat), List.findIdx? p l i = some j → i ≤ j := by
  intro l
  induction l with
  | nil => intro i j h; rw [List.findIdx?_nil] at h; cases h
  | cons a t ih =>
    intro i j h
    rw [List.findIdx?_cons] at h
    by_cases hp : p a
    · rw [if_pos hp] at h; cases h; exact le_refl _
    · rw [if_neg hp] at h; exact Nat.le_of_succ_le (ih (i + 1) j h)

theorem c9_keyB (c : List Char) :
    Conl.splitUnquoted ('k' :: 'e' :: 'y' :: ';' :: c) true = ("key".data, ';' :: c) := by
  unfold Conl.splitUnquoted
  simp +decide only [List.findIdx?_cons, if_true, if_false]
  norm_num
  cases hfind : List.findIdx? (fun ch => decide (ch = '=')) c with
  | none =>
    simp +decide [hfind, Conl.jsTrimEnd, Conl.isJsWs]
  | some j =>
    simp +decide [hfind, Option.guard, Conl.jsTrimEnd, Conl.isJsWs]

theorem c9_keyA (c : List Char) :
    Conl.splitUnquoted
      ('k' :: 'e' :: 'y' :: ' ' :: '=' :: ' ' :: 'v' :: 'a' :: 'l' :: 'u' :: 'e' :: ';' :: c)
      true =
      ("key".data, '=' :: ' ' :: 'v' :: 'a' :: 'l' :: 'u' :: 'e' :: ';' :: c) := by
  unfold Conl.splitUnquoted
  simp +decide [List.findIdx?_cons, Conl.jsTrimEnd, Conl.isJsWs]

theorem c9_valA (c : List Char) :
    Conl.splitUnquoted ('v' :: 'a' :: 'l' :: 'u' :: 'e' :: ';' :: c) false =
      ("value".data, ';' :: c) := by
  unfold Conl.splitUnquoted
  simp +decide [List.findIdx?_cons, Conl.jsTrimEnd, Conl.isJsWs]

theorem c9_conjA (c : List Char) (hc : ∀ ch ∈ c, Conl.isLineTerm ch = false) :
    Conl.conlTokens ("key = value;".data ++ c) =
      .ok [⟨1, .MapKey, "key".data, none⟩, ⟨1, .Scalar, "value".data, none⟩,
           ⟨1, .Comment, c, none⟩] := by
  have hct : List.takeWhile (fun ch => !Conl.isLineTerm ch) c = c :=
    List.takeWhile_eq_self_iff.mpr (fun a ha => by simp [hc a ha])
  have hnl : ∀ ch ∈ c, ch ≠ '\n' ∧ ch ≠ '\r' := by
    intro ch hch
    have h9 := hc ch hch
    constructor <;> rintro rfl <;> simp [Conl.isLineTerm] at h9
  have heq : "key = value;".data ++ c =
      'k' :: 'e' :: 'y' :: ' ' :: '=' :: ' ' :: 'v' :: 'a' :: 'l' :: 'u' :: 'e' :: ';' :: c := rfl
  rw [heq]
  have hlines := linesU_single (s := 'k' :: 'e' :: 'y' :: ' ' :: '=' :: ' ' :: 'v' :: 'a' :: 'l' :: 'u' :: 'e' :: ';' :: c)
    (by simp) (by
      intro ch hch
      simp only [List.mem_cons] at hch
      rcases hch with h|h|h|h|h|h|h|h|h|h|h|h|h
      all_goals first
      | (subst h; constructor <;> decide)
      | exact hnl ch h)
  unfold Conl.conlTokens Conl.tokenizeT Conl.lexAll
  rw [hlines]
  simp +decide [Conl.lexLines, Conl.lexLine, Conl.lexMain, Conl.lexValue, Conl.afterKeyRest, Conl.initLexState, Conl.trimLeft,
    Conl.cutPrefix, Conl.tokenizeFlush, Conl.vRun, Conl.vStep, Conl.vFlush,
    Conl.checkUtf8, bind, Except.bind, pure, Except.pure, Conl.isHWs,
    List.isPrefixOf, Conl.popOutdents, Conl.splitLiteral, c9_keyA, c9_valA,
    Conl.decodeLiteralU, List.takeWhile_cons, hct]

theorem c9_conjB (c : List Char) (hc : ∀ ch ∈ c, Conl.isLineTerm ch = false) :
    Conl.conlTokens ("key;".data ++ c) =
      .ok [⟨1, .MapKey, "key".data, none⟩, ⟨1, .Comment, c, none⟩,
           ⟨1, .NoValue, [], none⟩] := by
  have hct : List.takeWhile (fun ch => !Conl.isLineTerm ch) c = c :=
    List.takeWhile_eq_self_iff.mpr (fun a ha => by simp [hc a ha])
  have hnl : ∀ ch ∈ c, ch ≠ '\n' ∧ ch ≠ '\r' := by
    intro ch hch
    have h9 := hc ch hch
    constructor <;> rintro rfl <;> simp [Conl.isLineTerm] at h9
  have heq : "key;".data ++ c = 'k' :: 'e' :: 'y' :: ';' :: c := rfl
  rw [heq]
  have hlines := linesU_single (s := 'k' :: 'e' :: 'y' :: ';' :: c)
    (by simp) (by
      intro ch hch
      simp only [List.mem_cons] at hch
      rcases hch with h|h|h|h|h
      all_goals first
      | (subst h; constructor <;> decide)
      | exact hnl ch h)
  unfold Conl.conlTokens Conl.tokenizeT Conl.lexAll
  rw [hlines]
  simp +decide [Conl.lexLines, Conl.lexLine, Conl.lexMain, Conl.lexValue, Conl.afterKeyRest, Conl.initLexState, Conl.trimLeft,
    Conl.cutPrefix, Conl.tokenizeFlush, Conl.vRun, Conl.vStep, Conl.vFlush,
    Conl.checkUtf8, bind, Except.bind, pure, Except.pure, Conl.isHWs,
    List.isPrefixOf, Conl.popOutdents, Conl.splitLiteral, c9_keyB,
    Conl.decodeLiteralU, List.takeWhile_cons, hct]

/-- C9 (counterexample): the comment text is NOT kept verbatim when it
contains a JavaScript line terminator: `utils.ts` `trimLeft`'s regex group
`(.*)` stops at U+2028, so the comment `a\u2028b` is emitted as `a`. -/
theorem c9_comment_truncated :
    Conl.conlTokens [';', 'a', '\u2028', 'b'] =
      .ok [⟨1, .Comment, ['a'], none⟩] ∧
    (['a'] : List Char) ≠ ['a', '\u2028', 'b'] :=
  ⟨rfl, by decide⟩

/-- C9 (amended): for every line with a trailing comment after its key or
value, the `Comment` token's content is the text after the `;` truncated
at the first JavaScript line terminator (LF, CR, U+2028, U+2029); for
comment texts containing no line terminator this is the text verbatim
(including any leading space after the `;`).  Stated for a key-value
line, a bare-key line, and a full-line comment. -/
theorem c9_comment_verbatim (c : List Char) :
    ((∀ ch ∈ c, Conl.isLineTerm ch = false) →
      Conl.conlTokens ("key = value;".data ++ c) =
        .ok [⟨1, .MapKey, "key".data, none⟩, ⟨1, .Scalar, "value".data, none⟩,
             ⟨1, .Comment, c, none⟩]
      ∧ Conl.conlTokens ("key;".data ++ c) =
        .ok [⟨1, .MapKey, "key".data, none⟩, ⟨1, .Comment, c, none⟩,
             ⟨1, .NoValue, [], none⟩]
      ∧ Conl.conlTokens (';' :: c) = .ok [⟨1, .Comment, c, none⟩]) ∧
    ((∀ ch ∈ c, ch ≠ '\n' ∧ ch ≠ '\r') →
      Conl.conlTokens (';' :: c) =
        .ok [⟨1, .Comment, c.takeWhile (fun ch => !Conl.isLineTerm ch),
              none⟩]) := by
  constructor
  · intro hc
    have hct : List.takeWhile (fun ch => !Conl.isLineTerm ch) c = c :=
      List.takeWhile_eq_self_iff.mpr (fun a ha => by simp [hc a ha])
    have hnl : ∀ ch ∈ c, ch ≠ '\n' ∧ ch ≠ '\r' := by
      intro ch hch
      have h9 := hc ch hch
      constructor <;> rintro rfl <;> simp [Conl.isLineTerm] at h9
    refine ⟨c9_conjA c hc, c9_conjB c hc, ?_⟩
    rw [c9_conjC c hnl, hct]
  · exact c9_conjC c

/-- Witness for `c9_comment_verbatim`: the verbatim conjunct at the clean
comment text ` trailing ;note` and the truncation conjunct at `a\u2028b`. -/
theorem c9_comment_verbatim_witness :
    Conl.conlTokens (';' :: " trailing ;note".data) =
      .ok [⟨1, .Comment, " trailing ;note".data, none⟩] ∧
    Conl.conlTokens (';' :: 'a' :: '\u2028' :: 'b' :: []) =
      .ok [⟨1, .Comment,
        ('a' :: '\u2028' :: 'b' :: []).takeWhile (fun ch => !Conl.isLineTerm ch),
        none⟩] :=
  ⟨((c9_comment_verbatim " trailing ;note".data).1 (by decide)).2.2,
   (c9_comment_verbatim ('a' :: '\u2028' :: 'b' :: [])).2 (by decide)⟩

namespace Conl

/-- Structural effect of a token on the replay depth. -/
theorem replayDepth_append {ts ts' : List Token} {d d' d'' : Nat}
    (h1 : replayDepth d ts = some d') (h2 : replayDepth d' ts' = some d'') :
    replayDepth d (ts ++ ts') = some d'' := by
  induction ts generalizing d with
  | nil => rw [replayDepth] at h1; cases h1; simpa using h2
  | cons t rest ih =>
    rw [List.cons_append, replayDepth]
    rw [replayDepth] at h1
    match hk : t.kind with
    | .Indent => simp only [hk] at h1 ⊢; exact ih h1
    | .Outdent =>
      simp only [hk] at h1 ⊢
      by_cases hd : d = 0
      · rw [if_pos hd] at h1; cases h1
      · rw [if_neg hd] at h1 ⊢; exact ih h1
    | .Comment | .MapKey | .ListItem | .Scalar | .NoValue
    | .MultilineScalar | .MultilineHint =>
      simp only [hk] at h1 ⊢
      exact ih h1

/-- Tokens that are neither `Indent` nor `Outdent` leave the depth alone. -/
theorem replayDepth_flat {ts : List Token} {d : Nat}
    (h : ∀ t ∈ ts, t.kind ≠ .Indent ∧ t.kind ≠ .Outdent) :
    replayDepth d ts = some d := by
  induction ts with
  | nil => rfl
  | cons t rest ih =>
    have ht := h t (by simp)
    rw [replayDepth]
    match hk : t.kind with
    | .Indent => exact absurd hk ht.1
    | .Outdent => exact absurd hk ht.2
    | .Comment | .MapKey | .ListItem | .Scalar | .NoValue
    | .MultilineScalar | .MultilineHint =>
      exact ih (fun u hu => h u (by simp [hu]))

/-- A run of `Outdent`s of length at most the depth. -/
theorem replayDepth_outs {ts : List Token} {d : Nat}
    (h : ∀ t ∈ ts, t.kind = TokenKind.Outdent) (hle : ts.length ≤ d) :
    replayDepth d ts = some (d - ts.length) := by
  induction ts generalizing d with
  | nil => rw [replayDepth]; simp
  | cons t rest ih =>
    have hlen : rest.length + 1 ≤ d := by simpa using hle
    have h9 : ¬ (d = 0) := by omega
    have h8 : rest.length ≤ d - 1 := by omega
    rw [replayDepth, h t (by simp)]
    rw [if_neg h9]
    rw [ih (fun u hu => h u (by simp [hu])) h8]
    have h7 : d - 1 - rest.length = d - (t :: rest).length := by
      simp only [List.length_cons]
      omega
    rw [h7]

theorem popOutdents_spec (stk : List (List Char)) (indent : List Char) (lno : Nat)
    (hroot : stk.getLast? = some []) :
    (popOutdents stk indent lno).1 ≠ [] ∧
    (popOutdents stk indent lno).1.getLast? = some [] ∧
    (∀ t ∈ (popOutdents stk indent lno).2,
      t.kind = TokenKind.Outdent ∧ t.error = none) ∧
    replayDepth (stk.length - 1) (popOutdents stk indent lno).2 =
      some ((popOutdents stk indent lno).1.length - 1) ∧
    (popOutdents stk indent lno).1.length ≤ stk.length := by
  induction stk with
  | nil => cases hroot
  | cons top rest ih =>
    rw [popOutdents]
    by_cases hpre : top.isPrefixOf indent
    · rw [if_pos hpre]
      exact ⟨by simp, hroot, by simp, by rw [replayDepth], by simp⟩
    · rw [if_neg hpre]
      cases rest with
      | nil =>
        exfalso
        have : top = [] := by simpa using hroot
        subst this
        exact hpre (by simp [List.isPrefixOf])
      | cons r rs =>
        have hroot2 : (r :: rs).getLast? = some [] := by
          rwa [List.getLast?_cons_cons] at hroot
        obtain ⟨h1, h2, h3, h4, h5⟩ := ih hroot2
        rcases hpo : popOutdents (r :: rs) indent lno with ⟨s', ts⟩
        rw [hpo] at h1 h2 h3 h4 h5
        simp only [hpo]
        refine ⟨h1, h2, ?_, ?_, ?_⟩
        · intro t ht
          rcases List.mem_cons.mp ht with h | h
          · subst h; exact ⟨rfl, rfl⟩
          · exact h3 t h
        · rw [replayDepth]
          simp only [List.length_cons]
          rw [if_neg (by omega)]
          have harith : rs.length + 1 + 1 - 1 - 1 = (r :: rs).length - 1 := by
            simp
          rw [harith]
          exact h4
        · simp only [List.length_cons] at h5 ⊢
          omega

/-- `lexValue` leaves the stack alone and emits only flat content
tokens. -/
theorem lexValue_spec {st : LexState} {lno : Nat} {cur : List Char}
    {st' : LexState} {ts : List Token}
    (h : lexValue st lno cur = .ok (st', ts)) :
    st'.stack = st.stack ∧
    (∀ t ∈ ts, (t.kind ≠ TokenKind.Indent ∧ t.kind ≠ TokenKind.Outdent) ∧
      t.kind ≠ TokenKind.NoValue) := by
  unfold lexValue at h
  by_cases h1 : (cutPrefix cur [';']).2 = true
  · rw [if_pos h1] at h
    cases h
    refine ⟨rfl, ?_⟩
    intro t ht
    fin_cases ht
    all_goals simp
  · rw [if_neg h1] at h
    by_cases h2 : (cutPrefix cur ['"', '"', '"']).2 = true
    · rw [if_pos h2] at h
      cases h
      refine ⟨rfl, ?_⟩
      intro t ht
      by_cases h3 :
          (cutPrefix (splitLiteral (cutPrefix cur ['"', '"', '"']).1 false).2 [';']).2 = true
      · rw [if_pos h3] at ht
        fin_cases ht
        all_goals simp
      · rw [if_neg h3] at ht
        fin_cases ht
        all_goals simp
    · rw [if_neg h2] at h
      by_cases h4 : (splitLiteral cur false).1 ≠ []
      · rw [if_pos h4] at h
        cases hdec : decodeLiteralU (splitLiteral cur false).1 with
        | error e => rw [hdec] at h; cases h
        | ok x =>
          rw [hdec] at h
          cases h
          refine ⟨rfl, ?_⟩
          intro t ht
          by_cases h5 : (cutPrefix (splitLiteral cur false).2 [';']).2 = true
          · rw [if_pos h5] at ht
            fin_cases ht
            all_goals simp
          · rw [if_neg h5] at ht
            fin_cases ht
            all_goals simp
      · rw [if_neg h4] at h
        cases h
        refine ⟨rfl, ?_⟩
        intro t ht
        by_cases h5 : (cutPrefix (splitLiteral cur false).2 [';']).2 = true
        · rw [if_pos h5] at ht
          fin_cases ht
          all_goals simp
        · rw [if_neg h5] at ht
          fin_cases ht
          all_goals simp

/-- A single `Indent` token raises the depth by one. -/
theorem replayDepth_single_indent {d : Nat} {lno : Nat} {c : List Char} :
    replayDepth d [⟨lno, TokenKind.Indent, c, none⟩] = some (d + 1) := rfl

/-- The `Indent`/`Outdent` effect of one `lexMain` emission. -/
theorem lexMain_spec {st : LexState} {lno : Nat} {indent rest : List Char}
    {st' : LexState} {ts : List Token}
    (h : lexMain st lno indent rest = .ok (st', ts))
    (hroot : st.stack.getLast? = some []) :
    st'.stack.getLast? = some [] ∧
    replayDepth (st.stack.length - 1) ts = some (st'.stack.length - 1) ∧
    (∀ t ∈ ts, t.kind ≠ TokenKind.NoValue) := by
  unfold lexMain at h
  by_cases h1 : rest = []
  · rw [if_pos h1] at h
    cases h
    exact ⟨hroot, by rw [replayDepth], by simp⟩
  · rw [if_neg h1] at h
    by_cases h2 : (cutPrefix rest [';']).2 = true
    · rw [if_pos h2] at h
      cases h
      refine ⟨hroot, ?_, by simp⟩
      exact replayDepth_flat (by simp)
    · rw [if_neg h2] at h
      obtain ⟨hp1, hp2, hp3, hp4, hp5⟩ := popOutdents_spec st.stack indent lno hroot
      have key : ∀ (cur : List Char) (entry : Token) (x : LexState × List Token),
          lexValue
            { st with stack :=
                if indent ≠ ((popOutdents st.stack indent lno).1.headD []) then
                  indent :: (popOutdents st.stack indent lno).1
                else (popOutdents st.stack indent lno).1 }
            lno cur = .ok x →
          ((entry.kind ≠ TokenKind.Indent ∧ entry.kind ≠ TokenKind.Outdent) ∧
            entry.kind ≠ TokenKind.NoValue) →
          x.1.stack.getLast? = some [] ∧
          replayDepth (st.stack.length - 1)
            (((popOutdents st.stack indent lno).2 ++
              (if indent ≠ ((popOutdents st.stack indent lno).1.headD []) then
                [({ lno := lno, kind := .Indent, content := indent } : Token)]
              else [])) ++ entry :: x.2) = some (x.1.stack.length - 1) ∧
          (∀ t ∈ ((popOutdents st.stack indent lno).2 ++
              (if indent ≠ ((popOutdents st.stack indent lno).1.headD []) then
                [({ lno := lno, kind := .Indent, content := indent } : Token)]
              else [])) ++ entry :: x.2, t.kind ≠ TokenKind.NoValue) := by
        intro cur entry x hlv hent
        obtain ⟨hs, hflat⟩ := lexValue_spec hlv
        simp only at hs
        have hflatcons : ∀ t ∈ entry :: x.2,
            t.kind ≠ TokenKind.Indent ∧ t.kind ≠ TokenKind.Outdent := by
          intro t ht
          rcases List.mem_cons.mp ht with h | h
          · subst h; exact hent.1
          · exact (hflat t h).1
        by_cases hpush : indent ≠ ((popOutdents st.stack indent lno).1.headD [])
        · rw [if_pos hpush] at hs
          rw [if_pos hpush]
          obtain ⟨p0, prest, hpc⟩ := List.exists_cons_of_ne_nil hp1
          have hlast : x.1.stack.getLast? = some [] := by
            rw [hs, hpc, List.getLast?_cons_cons]
            rw [hpc] at hp2
            exact hp2
          refine ⟨hlast, ?_, ?_⟩
          · have hb1 : replayDepth (st.stack.length - 1)
                ((popOutdents st.stack indent lno).2 ++
                  [({ lno := lno, kind := .Indent, content := indent } : Token)]) =
                some ((popOutdents st.stack indent lno).1.length - 1 + 1) :=
              replayDepth_append hp4 replayDepth_single_indent
            have hb2 := replayDepth_append hb1 (replayDepth_flat hflatcons)
            rw [hb2]
            have hge : (popOutdents st.stack indent lno).1.length ≥ 1 := by
              rw [hpc]; simp
            have hxlen : x.1.stack.length =
                (popOutdents st.stack indent lno).1.length + 1 := by
              rw [hs]; simp
            congr 1
            omega
          · intro t ht
            simp only [List.mem_append, List.mem_cons, List.mem_singleton,
              List.not_mem_nil, or_false] at ht
            rcases ht with (h | h) | h | h
            · rw [(hp3 t h).1]; simp
            · subst h; simp
            · subst h; exact hent.2
            · exact (hflat t h).2
        · rw [if_neg hpush] at hs
          rw [if_neg hpush]
          refine ⟨by rw [hs]; exact hp2, ?_, ?_⟩
          · have hb2 := replayDepth_append hp4 (replayDepth_flat hflatcons)
            simp only [List.append_nil]
            rw [hb2, hs]
          · intro t ht
            simp only [List.append_nil, List.mem_append, List.mem_cons] at ht
            rcases ht with h | h | h
            · rw [(hp3 t h).1]; simp
            · subst h; exact hent.2
            · exact (hflat t h).2
      by_cases h3 : (cutPrefix rest ['=']).2 = true
      · rw [if_pos h3] at h
        cases hlv : lexValue
            { st with stack :=
                if indent ≠ ((popOutdents st.stack indent lno).1.headD []) then
                  indent :: (popOutdents st.stack indent lno).1
                else (popOutdents st.stack indent lno).1 }
            lno (trimLeft (cutPrefix rest ['=']).1).2 with
        | error e => rw [hlv] at h; cases h
        | ok x =>
          rw [hlv] at h
          cases h
          exact key _ _ x hlv ⟨⟨by simp, by simp⟩, by simp⟩
      · rw [if_neg h3] at h
        cases hdk : decodeLiteralU (splitLiteral rest true).1 with
        | error e => rw [hdk] at h; cases h
        | ok k =>
          rw [hdk] at h
          cases hlv : lexValue
              { st with stack :=
                  if indent ≠ ((popOutdents st.stack indent lno).1.headD []) then
                    indent :: (popOutdents st.stack indent lno).1
                  else (popOutdents st.stack indent lno).1 }
              lno (afterKeyRest (splitLiteral rest true).2) with
          | error e => rw [hlv] at h; cases h
          | ok x =>
            rw [hlv] at h
            cases h
            exact key _ _ x hlv ⟨⟨by simp, by simp⟩, by simp⟩

/-- `lexLine` preserves the root sentinel and its emission's depth effect
matches the stack-length change. -/
theorem lexLine_spec {st : LexState} {lno : Nat} {content : List Char}
    {st' : LexState} {ts : List Token}
    (h : lexLine st lno content = .ok (st', ts))
    (hroot : st.stack.getLast? = some []) :
    st'.stack.getLast? = some [] ∧
    replayDepth (st.stack.length - 1) ts = some (st'.stack.length - 1) ∧
    (∀ t ∈ ts, t.kind ≠ TokenKind.NoValue) := by
  unfold lexLine at h
  by_cases h1 : st.multiline = true
  · rw [if_pos h1] at h
    by_cases h2 : st.multilinePrefix = []
    · rw [if_pos h2] at h
      by_cases h3 : (st.stack.headD []).isPrefixOf (trimLeft content).1 ∧
          (trimLeft content).1 ≠ st.stack.headD []
      · rw [if_pos h3] at h
        cases h
        exact ⟨hroot, by rw [replayDepth], by simp⟩
      · rw [if_neg h3] at h
        by_cases h4 : (trimLeft content).2 = []
        · rw [if_pos h4] at h
          cases h
          exact ⟨hroot, by rw [replayDepth], by simp⟩
        · rw [if_neg h4] at h
          cases hlm : lexMain { st with multiline := false } lno
              (trimLeft content).1 (trimLeft content).2 with
          | error e => rw [hlm] at h; cases h
          | ok x =>
            rw [hlm] at h
            cases h
            obtain ⟨ha, hb, hc⟩ := lexMain_spec hlm hroot
            refine ⟨ha, ?_, ?_⟩
            · rw [replayDepth]
              exact hb
            · intro t ht
              rcases List.mem_cons.mp ht with h | h
              · subst h; simp
              · exact hc t h
    · rw [if_neg h2] at h
      by_cases h3 : st.multilinePrefix.isPrefixOf content
      · rw [if_pos h3] at h
        cases h
        exact ⟨hroot, by rw [replayDepth], by simp⟩
      · rw [if_neg h3] at h
        by_cases h4 : (trimLeft content).2 = []
        · rw [if_pos h4] at h
          cases h
          exact ⟨hroot, by rw [replayDepth], by simp⟩
        · rw [if_neg h4] at h
          cases hlm : lexMain { st with multiline := false, multilinePrefix := [], multilineValue := [] } lno (trimLeft content).1 (trimLeft content).2 with
          | error e => rw [hlm] at h; cases h
          | ok x =>
            rw [hlm] at h
            cases h
            obtain ⟨ha, hb, hc⟩ := lexMain_spec hlm hroot
            refine ⟨ha, ?_, ?_⟩
            · rw [replayDepth]
              exact hb
            · intro t ht
              rcases List.mem_cons.mp ht with h | h
              · subst h; simp
              · exact hc t h
  · rw [if_neg h1] at h
    exact lexMain_spec h hroot

/-- `lexLines` composes the per-line depth effects. -/
theorem lexLines_spec {ls : List (Nat × List Char)} : ∀ {st : LexState}
    {st' : LexState} {ts : List Token},
    lexLines st ls = .ok (st', ts) →
    st.stack.getLast? = some [] →
    st'.stack.getLast? = some [] ∧
    replayDepth (st.stack.length - 1) ts = some (st'.stack.length - 1) ∧
    (∀ t ∈ ts, t.kind ≠ TokenKind.NoValue) := by
  induction ls with
  | nil =>
    intro st st' ts h hroot
    rw [lexLines] at h
    cases h
    exact ⟨hroot, by rw [replayDepth], by simp⟩
  | cons l rest ih =>
    intro st st' ts h hroot
    rw [lexLines] at h
    cases hl : lexLine st l.1 l.2 with
    | error e => rw [hl] at h; cases h
    | ok x =>
      rw [hl] at h
      dsimp only at h
      cases hr : lexLines x.1 rest with
      | error e => rw [hr] at h; cases h
      | ok y =>
        rw [hr] at h
        cases h
        obtain ⟨ha, hb, hc⟩ := lexLine_spec hl hroot
        obtain ⟨ha', hb', hc'⟩ := ih hr ha
        refine ⟨ha', replayDepth_append hb hb', ?_⟩
        intro t ht
        rcases List.mem_append.mp ht with h | h
        · exact hc t h
        · exact hc' t h

/-- The raw tolerant token stream has a well-defined final depth and no
`NoValue` tokens. -/
theorem tokenizeT_spec {input : List Char} {ts : List Token}
    (h : tokenizeT input = .ok ts) :
    (∃ d, replayDepth 0 ts = some d) ∧
    (∀ t ∈ ts, t.kind ≠ TokenKind.NoValue) := by
  unfold tokenizeT lexAll at h
  cases hl : lexLines initLexState (linesU input) with
  | error e => rw [hl] at h; cases h
  | ok x =>
    rw [hl] at h
    cases h
    have hroot : initLexState.stack.getLast? = some [] := rfl
    obtain ⟨ha, hb, hc⟩ := lexLines_spec hl hroot
    have hflushflat : ∀ t ∈ tokenizeFlush x.1,
        t.kind ≠ TokenKind.Indent ∧ t.kind ≠ TokenKind.Outdent := by
      unfold tokenizeFlush
      by_cases hm : x.1.multiline = true
      · rw [if_pos hm]
        by_cases hv : x.1.multilineValue ≠ []
        · rw [if_pos hv]; intro t ht; simp at ht; subst ht; simp
        · rw [if_neg hv]; intro t ht; simp at ht; subst ht; simp
      · rw [if_neg hm]; intro t ht; simp at ht
    have hflushnv : ∀ t ∈ tokenizeFlush x.1, t.kind ≠ TokenKind.NoValue := by
      unfold tokenizeFlush
      by_cases hm : x.1.multiline = true
      · rw [if_pos hm]
        by_cases hv : x.1.multilineValue ≠ []
        · rw [if_pos hv]; intro t ht; simp at ht; subst ht; simp
        · rw [if_neg hv]; intro t ht; simp at ht; subst ht; simp
      · rw [if_neg hm]; intro t ht; simp at ht
    refine ⟨⟨x.1.stack.length - 1, ?_⟩, ?_⟩
    · have : (initLexState.stack.length - 1) = 0 := rfl
      rw [this] at hb
      exact replayDepth_append hb (replayDepth_flat hflushflat)
    · intro t ht
      rcases List.mem_append.mp ht with h | h
      · exact hc t h
      · exact hflushnv t h

/-- Unfolding `replayDepth` at an `Indent` head. -/
theorem replayDepth_cons_indent {t : Token} {ts : List Token} {d : Nat}
    (hk : t.kind = TokenKind.Indent) :
    replayDepth d (t :: ts) = replayDepth (d + 1) ts := by
  rw [replayDepth, hk]

/-- Unfolding `replayDepth` at an `Outdent` head. -/
theorem replayDepth_cons_outdent {t : Token} {ts : List Token} {d : Nat}
    (hk : t.kind = TokenKind.Outdent) :
    replayDepth d (t :: ts) = if d = 0 then none else replayDepth (d - 1) ts := by
  rw [replayDepth, hk]

/-- Unfolding `replayDepth` at a head that is neither `Indent` nor
`Outdent`. -/
theorem replayDepth_cons_flat {t : Token} {ts : List Token} {d : Nat}
    (h1 : t.kind ≠ TokenKind.Indent) (h2 : t.kind ≠ TokenKind.Outdent) :
    replayDepth d (t :: ts) = replayDepth d ts := by
  rw [replayDepth]
  cases hk : t.kind
  all_goals first
    | rfl
    | (exact absurd hk h1)
    | (exact absurd hk h2)

/-- The validator flush closes exactly the open depth. -/
theorem vFlush_depth (ll : Nat) : ∀ (frames : List VFrame) (k : Nat),
    frames.length = k + 1 → replayDepth k (vFlush ll frames) = some 0 := by
  intro frames
  induction frames with
  | nil => intro k hk; simp at hk
  | cons state rest ih =>
    intro k hk
    cases rest with
    | nil =>
      have hk0 : k = 0 := by simpa using hk
      subst hk0
      rw [vFlush]
      by_cases hh : state.hasKey = true
      · rw [if_pos hh]
        rfl
      · rw [if_neg hh]
        rfl
    | cons r rs =>
      have hk1 : k = rs.length + 1 := by
        simp only [List.length_cons] at hk
        omega
      have hkne : ¬ (k = 0) := by omega
      rw [vFlush]
      have hr : (r :: rs) ≠ [] := by simp
      rw [if_pos hr]
      have step : replayDepth k
          (({ lno := ll, kind := .Outdent, content := [] } : Token) ::
            vFlush ll (r :: rs)) = some 0 := by
        rw [replayDepth_cons_outdent rfl, if_neg hkne]
        exact ih (k - 1) (by simp only [List.length_cons]; omega)
      by_cases hh : state.hasKey = true
      · rw [if_pos hh]
        simp only [List.cons_append, List.nil_append]
        rw [replayDepth_cons_flat (by simp) (by simp)]
        exact step
      · rw [if_neg hh]
        simp only [List.cons_append, List.nil_append]
        exact step

/-- A successful depth replay balances the `Indent` and `Outdent` counts. -/
theorem replayDepth_count {ts : List Token} : ∀ {d d' : Nat},
    replayDepth d ts = some d' →
    d + countKind TokenKind.Indent ts = d' + countKind TokenKind.Outdent ts := by
  induction ts with
  | nil =>
    intro d d' h
    rw [replayDepth] at h
    cases h
    rfl
  | cons t rest ih =>
    intro d d' h
    rw [replayDepth] at h
    cases hk : t.kind <;> rw [hk] at h
    case Outdent =>
      by_cases hd : d = 0
      · rw [if_pos hd] at h
        cases h
      · rw [if_neg hd] at h
        have h2 := ih h
        simp [countKind, List.filter_cons, hk] at h2 ⊢ <;> omega
    all_goals
      have h2 := ih h
    all_goals
      simp [countKind, List.filter_cons, hk] at h2 ⊢ <;> omega


/-- One validator step: frame count tracks replay depth, the emitted
tokens replay from `d` to the new depth, and frame kinds stay in
`{Comment, MapKey, ListItem}`. -/
theorem vStep_spec {frames : List VFrame} {ll : Nat} {t : Token}
    {fs : List VFrame} {ll2 : Nat} {out : List Token} {d df : Nat}
    {rest : List Token}
    (h : vStep frames ll t = .ok (fs, ll2, out))
    (hlen : frames.length = d + 1)
    (hkinds : ∀ f ∈ frames, f.kind = TokenKind.Comment ∨
      f.kind = TokenKind.MapKey ∨ f.kind = TokenKind.ListItem)
    (hrd : replayDepth d (t :: rest) = some df) :
    ∃ e, replayDepth d out = some e ∧ fs.length = e + 1 ∧
      replayDepth e rest = some df ∧
      (∀ f ∈ fs, f.kind = TokenKind.Comment ∨
        f.kind = TokenKind.MapKey ∨ f.kind = TokenKind.ListItem) := by
  unfold vStep at h
  rw [replayDepth] at hrd
  cases hk : t.kind <;> rw [hk] at h hrd <;> dsimp only at hrd
  case Indent =>
    cases frames with
    | nil => cases h
    | cons state r =>
      have hst := hkinds state (by simp)
      dsimp only at h
      by_cases hh : state.hasKey = true
      · rw [if_pos hh] at h
        cases h
        refine ⟨d + 1, ?_, ?_, hrd, ?_⟩
        · rw [replayDepth_cons_indent hk, replayDepth]
        · simp only [List.length_cons] at hlen ⊢
          omega
        · intro f hf
          rcases List.mem_cons.mp hf with rfl | hf
          · left; rfl
          rcases List.mem_cons.mp hf with rfl | hf
          · simpa using hst
          · exact hkinds f (by simp [hf])
      · rw [if_neg hh] at h
        cases h
        refine ⟨d + 1, ?_, ?_, hrd, ?_⟩
        · rw [replayDepth_cons_flat ?_ ?_, replayDepth_cons_indent hk, replayDepth]
          · rcases hst with hc | hc | hc <;> simp [hc]
          · rcases hst with hc | hc | hc <;> simp [hc]
        · simp only [List.length_cons] at hlen ⊢
          omega
        · intro f hf
          rcases List.mem_cons.mp hf with rfl | hf
          · left; rfl
          rcases List.mem_cons.mp hf with rfl | hf
          · exact hst
          · exact hkinds f (by simp [hf])
  case Outdent =>
    by_cases hd : d = 0
    · rw [if_pos hd] at hrd
      cases hrd
    · rw [if_neg hd] at hrd
      cases frames with
      | nil => cases h
      | cons state r =>
        dsimp only at h
        have hr : ∀ f ∈ r, f.kind = TokenKind.Comment ∨
            f.kind = TokenKind.MapKey ∨ f.kind = TokenKind.ListItem :=
          fun f hf => hkinds f (by simp [hf])
        have hlenr : r.length = d - 1 + 1 := by
          simp only [List.length_cons] at hlen
          omega
        by_cases hh : state.hasKey = true
        · rw [if_pos hh] at h
          cases h
          refine ⟨d - 1, ?_, hlenr, hrd, hr⟩
          rw [replayDepth_cons_flat (by simp) (by simp),
            replayDepth_cons_outdent hk, if_neg hd, replayDepth]
        · rw [if_neg hh] at h
          cases h
          refine ⟨d - 1, ?_, hlenr, hrd, hr⟩
          rw [replayDepth_cons_outdent hk, if_neg hd, replayDepth]
  case ListItem =>
    cases frames with
    | nil => cases h
    | cons state r =>
      have hst := hkinds state (by simp)
      have hr : ∀ f ∈ r, f.kind = TokenKind.Comment ∨
          f.kind = TokenKind.MapKey ∨ f.kind = TokenKind.ListItem :=
        fun f hf => hkinds f (by simp [hf])
      dsimp only at h
      have hnv : ∀ (c : Prop) [Decidable c] (u : Token), u ∈
          (if c then [({ lno := t.lno, kind := .NoValue, content := [] } : Token)]
           else []) →
          u.kind ≠ TokenKind.Indent ∧ u.kind ≠ TokenKind.Outdent := by
        intro c inst u hu
        by_cases hc : c
        · rw [if_pos hc] at hu
          simp at hu
          subst hu
          simp
        · rw [if_neg hc] at hu
          simp at hu
      rcases hst with hc | hc | hc
      · rw [if_pos hc] at h
        dsimp only at h
        have hcond : ¬ (TokenKind.ListItem = TokenKind.MapKey ∧
            TokenKind.ListItem = TokenKind.ListItem) := by simp
        rw [if_neg hcond] at h
        have hcond2 : ¬ (TokenKind.ListItem = TokenKind.ListItem ∧
            TokenKind.ListItem = TokenKind.MapKey) := by simp
        rw [if_neg hcond2] at h
        cases h
        refine ⟨d, ?_, by simpa using hlen, hrd, ?_⟩
        · refine replayDepth_flat ?_
          intro u hu
          rcases List.mem_append.mp hu with hu | hu
          · exact hnv _ u hu
          · simp at hu
            subst hu
            simp [hk]
        · intro f hf
          rcases List.mem_cons.mp hf with rfl | hf
          · right; right; rfl
          · exact hr f hf
      · have hcne : ¬ (state.kind = TokenKind.Comment) := by simp [hc]
        rw [if_neg hcne] at h
        try dsimp only at h
        have hcond : state.kind = TokenKind.MapKey ∧
            TokenKind.ListItem = TokenKind.ListItem := ⟨hc, rfl⟩
        rw [if_pos hcond] at h
        cases h
        refine ⟨d, ?_, by simpa using hlen, hrd, ?_⟩
        · refine replayDepth_flat ?_
          intro u hu
          rcases List.mem_append.mp hu with hu | hu
          · exact hnv _ u hu
          · simp at hu
            subst hu
            simp
        · intro f hf
          rcases List.mem_cons.mp hf with rfl | hf
          · right; left; simpa using hc
          · exact hr f hf
      · have hcne : ¬ (state.kind = TokenKind.Comment) := by simp [hc]
        rw [if_neg hcne] at h
        try dsimp only at h
        have hcond : ¬ (state.kind = TokenKind.MapKey ∧
            TokenKind.ListItem = TokenKind.ListItem) := by simp [hc]
        rw [if_neg hcond] at h
        have hcond2 : ¬ (state.kind = TokenKind.ListItem ∧
            TokenKind.ListItem = TokenKind.MapKey) := by simp
        rw [if_neg hcond2] at h
        cases h
        refine ⟨d, ?_, by simpa using hlen, hrd, ?_⟩
        · refine replayDepth_flat ?_
          intro u hu
          rcases List.mem_append.mp hu with hu | hu
          · exact hnv _ u hu
          · simp at hu
            subst hu
            simp [hk]
        · intro f hf
          rcases List.mem_cons.mp hf with rfl | hf
          · right; right; simpa using hc
          · exact hr f hf
  case MapKey =>
    cases frames with
    | nil => cases h
    | cons state r =>
      have hst := hkinds state (by simp)
      have hr : ∀ f ∈ r, f.kind = TokenKind.Comment ∨
          f.kind = TokenKind.MapKey ∨ f.kind = TokenKind.ListItem :=
        fun f hf => hkinds f (by simp [hf])
      dsimp only at h
      have hnv : ∀ (c : Prop) [Decidable c] (u : Token), u ∈
          (if c then [({ lno := t.lno, kind := .NoValue, content := [] } : Token)]
           else []) →
          u.kind ≠ TokenKind.Indent ∧ u.kind ≠ TokenKind.Outdent := by
        intro c inst u hu
        by_cases hc : c
        · rw [if_pos hc] at hu
          simp at hu
          subst hu
          simp
        · rw [if_neg hc] at hu
          simp at hu
      rcases hst with hc | hc | hc
      · rw [if_pos hc] at h
        dsimp only at h
        have hcond : ¬ (TokenKind.MapKey = TokenKind.MapKey ∧
            TokenKind.MapKey = TokenKind.ListItem) := by simp
        rw [if_neg hcond] at h
        have hcond2 : ¬ (TokenKind.MapKey = TokenKind.ListItem ∧
            TokenKind.MapKey = TokenKind.MapKey) := by simp
        rw [if_neg hcond2] at h
        cases h
        refine ⟨d, ?_, by simpa using hlen, hrd, ?_⟩
        · refine replayDepth_flat ?_
          intro u hu
          rcases List.mem_append.mp hu with hu | hu
          · exact hnv _ u hu
          · simp at hu
            subst hu
            simp [hk]
        · intro f hf
          rcases List.mem_cons.mp hf with rfl | hf
          · right; left; rfl
          · exact hr f hf
      · have hcne : ¬ (state.kind = TokenKind.Comment) := by simp [hc]
        rw [if_neg hcne] at h
        try dsimp only at h
        have hcond : ¬ (state.kind = TokenKind.MapKey ∧
            TokenKind.MapKey = TokenKind.ListItem) := by simp
        rw [if_neg hcond] at h
        have hcond2 : ¬ (state.kind = TokenKind.ListItem ∧
            TokenKind.MapKey = TokenKind.MapKey) := by simp [hc]
        rw [if_neg hcond2] at h
        cases h
        refine ⟨d, ?_, by simpa using hlen, hrd, ?_⟩
        · refine replayDepth_flat ?_
          intro u hu
          rcases List.mem_append.mp hu with hu | hu
          · exact hnv _ u hu
          · simp at hu
            subst hu
            simp [hk]
        · intro f hf
          rcases List.mem_cons.mp hf with rfl | hf
          · right; left; simpa using hc
          · exact hr f hf
      · have hcne : ¬ (state.kind = TokenKind.Comment) := by simp [hc]
        rw [if_neg hcne] at h
        try dsimp only at h
        have hcond0 : ¬ (state.kind = TokenKind.MapKey ∧
            TokenKind.MapKey = TokenKind.ListItem) := by simp
        rw [if_neg hcond0] at h
        have hcond : state.kind = TokenKind.ListItem ∧
            TokenKind.MapKey = TokenKind.MapKey := ⟨hc, rfl⟩
        rw [if_pos hcond] at h
        cases h
        refine ⟨d, ?_, by simpa using hlen, hrd, ?_⟩
        · refine replayDepth_flat ?_
          intro u hu
          rcases List.mem_append.mp hu with hu | hu
          · exact hnv _ u hu
          · simp at hu
            subst hu
            simp
        · intro f hf
          rcases List.mem_cons.mp hf with rfl | hf
          · right; right; simpa using hc
          · exact hr f hf
  case Scalar =>
    cases frames with
    | nil => cases h
    | cons state r =>
      dsimp only at h
      cases h
      refine ⟨d, ?_, by simpa using hlen, hrd, ?_⟩
      · rw [replayDepth_cons_flat (by simp [hk]) (by simp [hk]), replayDepth]
      · intro f hf
        rcases List.mem_cons.mp hf with rfl | hf
        · simpa using hkinds state (by simp)
        · exact hkinds f (by simp [hf])
  case MultilineScalar =>
    cases frames with
    | nil => cases h
    | cons state r =>
      dsimp only at h
      cases h
      refine ⟨d, ?_, by simpa using hlen, hrd, ?_⟩
      · rw [replayDepth_cons_flat (by simp [hk]) (by simp [hk]), replayDepth]
      · intro f hf
        rcases List.mem_cons.mp hf with rfl | hf
        · simpa using hkinds state (by simp)
        · exact hkinds f (by simp [hf])
  case Comment =>
    cases h
    exact ⟨d, by rw [replayDepth_cons_flat (by simp [hk]) (by simp [hk]), replayDepth],
      hlen, hrd, hkinds⟩
  case MultilineHint =>
    cases h
    exact ⟨d, by rw [replayDepth_cons_flat (by simp [hk]) (by simp [hk]), replayDepth],
      hlen, hrd, hkinds⟩
  case NoValue => cases h

/-- Running the validator: frame count tracks depth and the output stream
replays from `d` to the same final depth as the input stream. -/
theorem vRun_spec {ts : List Token} : ∀ {frames : List VFrame} {ll : Nat}
    {fs : List VFrame} {ll2 : Nat} {out : List Token} {d df : Nat},
    vRun frames ll ts = .ok (fs, ll2, out) →
    frames.length = d + 1 →
    (∀ f ∈ frames, f.kind = TokenKind.Comment ∨ f.kind = TokenKind.MapKey ∨
      f.kind = TokenKind.ListItem) →
    replayDepth d ts = some df →
    replayDepth d out = some df ∧ fs.length = df + 1 ∧
      (∀ f ∈ fs, f.kind = TokenKind.Comment ∨ f.kind = TokenKind.MapKey ∨
        f.kind = TokenKind.ListItem) := by
  induction ts with
  | nil =>
    intro frames ll fs ll2 out d df h hlen hkinds hrd
    rw [vRun] at h
    cases h
    rw [replayDepth] at hrd
    cases hrd
    exact ⟨by rw [replayDepth], hlen, hkinds⟩
  | cons t rest ih =>
    intro frames ll fs ll2 out d df h hlen hkinds hrd
    rw [vRun] at h
    cases hv : vStep frames ll t with
    | error e => rw [hv] at h; cases h
    | ok x =>
      rw [hv] at h
      dsimp only at h
      cases hrun : vRun x.1 x.2.1 rest with
      | error e => rw [hrun] at h; cases h
      | ok y =>
        rw [hrun] at h
        cases h
        obtain ⟨e, h1, h2, h3, h4⟩ := vStep_spec hv hlen hkinds hrd
        obtain ⟨g1, g2, g3⟩ := ih hrun h2 h4 h3
        exact ⟨replayDepth_append h1 g1, g2, g3⟩

/-- Full pipeline: the validated tolerant stream replays `0 → 0`. -/
theorem conlTokens_balance {input : List Char} {ts : List Token}
    (h : conlTokens input = .ok ts) :
    replayDepth 0 ts = some 0 := by
  unfold conlTokens at h
  cases hraw : tokenizeT input with
  | error e => rw [hraw] at h; cases h
  | ok raw =>
    rw [hraw] at h
    dsimp only at h
    cases hrun : vRun [{ kind := .Comment, hasKey := false }] 0 raw with
    | error e => rw [hrun] at h; cases h
    | ok x =>
      rw [hrun] at h
      cases h
      obtain ⟨⟨dfin, hdf⟩, hnv⟩ := tokenizeT_spec hraw
      have hkinds : ∀ f ∈ [({ kind := .Comment, hasKey := false } : VFrame)],
          f.kind = TokenKind.Comment ∨ f.kind = TokenKind.MapKey ∨
          f.kind = TokenKind.ListItem := by
        intro f hf
        simp at hf
        subst hf
        left
        rfl
      obtain ⟨h1, h2, h3⟩ := vRun_spec hrun rfl hkinds hdf
      exact replayDepth_append h1 (vFlush_depth x.2.1 x.1 dfin h2)

/-- C2: for every input document, the validated tolerant token stream
contains exactly as many `Indent` tokens as `Outdent` tokens, and a
stack-based replay of the stream never goes negative (it starts and ends at
depth `0`); concretely, on `"k =\n  a = b"` the still-open nesting level is
closed at end of input by a synthetic `Outdent` token. -/
theorem c2_indent_outdent_balance :
    (∀ (input : List Char) (ts : List Token),
      conlTokens input = .ok ts →
      replayDepth 0 ts = some 0 ∧
      countKind TokenKind.Indent ts = countKind TokenKind.Outdent ts) ∧
    conlTokens "k =\n  a = b".data = .ok
      [⟨1, .MapKey, "k".data, none⟩, ⟨2, .Indent, "  ".data, none⟩,
       ⟨2, .MapKey, "a".data, none⟩, ⟨2, .Scalar, "b".data, none⟩,
       ⟨2, .Outdent, [], none⟩] := by
  constructor
  · intro input ts h
    have hb := conlTokens_balance h
    have hc := replayDepth_count hb
    exact ⟨hb, by omega⟩
  · rfl

/-- Witness for C2 at the concrete input `"k =\n  a = b"`. -/
theorem c2_indent_outdent_balance_witness :
    replayDepth 0
      [(⟨1, .MapKey, "k".data, none⟩ : Token), ⟨2, .Indent, "  ".data, none⟩,
       ⟨2, .MapKey, "a".data, none⟩, ⟨2, .Scalar, "b".data, none⟩,
       ⟨2, .Outdent, [], none⟩] = some 0 ∧
    countKind TokenKind.Indent
      [(⟨1, .MapKey, "k".data, none⟩ : Token), ⟨2, .Indent, "  ".data, none⟩,
       ⟨2, .MapKey, "a".data, none⟩, ⟨2, .Scalar, "b".data, none⟩,
       ⟨2, .Outdent, [], none⟩] =
    countKind TokenKind.Outdent
      [(⟨1, .MapKey, "k".data, none⟩ : Token), ⟨2, .Indent, "  ".data, none⟩,
       ⟨2, .MapKey, "a".data, none⟩, ⟨2, .Scalar, "b".data, none⟩,
       ⟨2, .Outdent, [], none⟩] :=
  c2_indent_outdent_balance.1 "k =\n  a = b".data
    [⟨1, .MapKey, "k".data, none⟩, ⟨2, .Indent, "  ".data, none⟩,
     ⟨2, .MapKey, "a".data, none⟩, ⟨2, .Scalar, "b".data, none⟩,
     ⟨2, .Outdent, [], none⟩] rfl

/-- Unfolding one checker step inside `secRunTol`. -/
theorem secRunTol_cons_some {stk s : List (Option TokenKind)} {t : Token}
    {ts : List Token} (h : secStepTol stk t = some s) :
    secRunTol stk (t :: ts) = secRunTol s ts := by
  rw [secRunTol, h]

/-- `secStepTol` on an `Indent` token. -/
theorem secStepTol_indent {stk : List (Option TokenKind)} {t : Token}
    (hk : t.kind = TokenKind.Indent) :
    secStepTol stk t = some (none :: stk) := by
  unfold secStepTol
  rw [hk]

/-- `secStepTol` on an `Outdent` token. -/
theorem secStepTol_outdent {stk : List (Option TokenKind)} {t : Token}
    (hk : t.kind = TokenKind.Outdent) :
    secStepTol stk t = some stk.tail := by
  unfold secStepTol
  rw [hk]

/-- `secStepTol` skips errored entry tokens. -/
theorem secStepTol_skip {stk : List (Option TokenKind)} {t : Token}
    (hk : t.kind = TokenKind.MapKey ∨ t.kind = TokenKind.ListItem)
    (he : t.error ≠ none) :
    secStepTol stk t = some stk := by
  unfold secStepTol
  rcases hk with hk | hk <;> rw [hk] <;> dsimp only <;> rw [if_pos he]

/-- `secStepTol` on a clean entry token. -/
theorem secStepTol_entry {stk : List (Option TokenKind)} {t : Token}
    (hk : t.kind = TokenKind.MapKey ∨ t.kind = TokenKind.ListItem)
    (he : t.error = none) :
    secStepTol stk t =
      match stk.head? with
      | none => none
      | some none => some (some t.kind :: stk.tail)
      | some (some k) => if k = t.kind then some stk else none := by
  have he2 : ¬ (t.error ≠ none) := by simp [he]
  unfold secStepTol
  rcases hk with hk | hk <;> rw [hk] <;> dsimp only <;> rw [if_neg he2]

/-- `secStepTol` ignores all other token kinds. -/
theorem secStepTol_other {stk : List (Option TokenKind)} {t : Token}
    (hk : t.kind = TokenKind.Scalar ∨ t.kind = TokenKind.MultilineScalar ∨
      t.kind = TokenKind.Comment ∨ t.kind = TokenKind.MultilineHint ∨
      t.kind = TokenKind.NoValue) :
    secStepTol stk t = some stk := by
  unfold secStepTol
  rcases hk with hk | hk | hk | hk | hk <;> rw [hk]

/-- A conditional `NoValue` prefix is invisible to the checker. -/
theorem secRunTol_nv_skip {stk : List (Option TokenKind)} {u : Token}
    (hu : u.kind = TokenKind.NoValue) (c : Prop) [inst : Decidable c]
    (ts : List Token) :
    secRunTol stk ((if c then [u] else []) ++ ts) = secRunTol stk ts := by
  have hother : secStepTol stk u = some stk := secStepTol_other (by simp [hu])
  by_cases hc : c
  · rw [if_pos hc, List.singleton_append, secRunTol_cons_some hother]
  · rw [if_neg hc, List.nil_append]

/-- One validator step preserves the amended section-homogeneity checker
state: the checker never reports a violation on the emitted tokens, and its
stack keeps agreeing with the validator's frames. -/
theorem vStep_sec {frames : List VFrame} {ll : Nat} {t : Token}
    {fs : List VFrame} {ll2 : Nat} {out : List Token}
    {stk : List (Option TokenKind)}
    (h : vStep frames ll t = .ok (fs, ll2, out))
    (hkinds : ∀ f ∈ frames, f.kind = TokenKind.Comment ∨
      f.kind = TokenKind.MapKey ∨ f.kind = TokenKind.ListItem)
    (hrel : List.Forall₂ (fun f o => o = none ∨ o = some f.kind) frames stk)
    (hvals : ∀ o ∈ stk, o = none ∨ o = some TokenKind.MapKey ∨
      o = some TokenKind.ListItem) :
    ∃ stk2, secRunTol stk out = some stk2 ∧
      List.Forall₂ (fun f o => o = none ∨ o = some f.kind) fs stk2 ∧
      (∀ o ∈ stk2, o = none ∨ o = some TokenKind.MapKey ∨
        o = some TokenKind.ListItem) := by
  unfold vStep at h
  cases hk : t.kind <;> rw [hk] at h
  case Indent =>
    cases frames with
    | nil => cases h
    | cons state r =>
      cases hrel with
      | cons hro hrtail =>
        rename_i o so
        dsimp only at h
        have hvals2 : ∀ o' ∈ (none :: o :: so : List (Option TokenKind)),
            o' = none ∨ o' = some TokenKind.MapKey ∨
            o' = some TokenKind.ListItem := by
          intro o' ho'
          rcases List.mem_cons.mp ho' with rfl | ho'
          · left; rfl
          · exact hvals o' ho'
        by_cases hh : state.hasKey = true
        · rw [if_pos hh] at h
          cases h
          refine ⟨none :: o :: so, ?_, ?_, hvals2⟩
          · rw [secRunTol_cons_some (secStepTol_indent hk), secRunTol]
          · exact .cons (Or.inl rfl) (.cons (by simpa using hro) hrtail)
        · rw [if_neg hh] at h
          cases h
          have herr : secStepTol (o :: so)
              ({ lno := t.lno,
                 kind := if state.kind = TokenKind.Comment then TokenKind.MapKey
                         else state.kind,
                 content := [], error := some "unexpected indent".data } : Token) =
              some (o :: so) := by
            refine secStepTol_skip ?_ (by simp)
            rcases hkinds state (by simp) with hc | hc | hc <;> simp [hc]
          refine ⟨none :: o :: so, ?_, ?_, hvals2⟩
          · rw [secRunTol_cons_some herr,
              secRunTol_cons_some (secStepTol_indent hk), secRunTol]
          · exact .cons (Or.inl rfl) (.cons hro hrtail)
  case Outdent =>
    cases frames with
    | nil => cases h
    | cons state r =>
      cases hrel with
      | cons hro hrtail =>
        rename_i o so
        dsimp only at h
        have hvalso : ∀ o' ∈ so, o' = none ∨ o' = some TokenKind.MapKey ∨
            o' = some TokenKind.ListItem :=
          fun o' ho' => hvals o' (by simp [ho'])
        by_cases hh : state.hasKey = true
        · rw [if_pos hh] at h
          cases h
          refine ⟨so, ?_, hrtail, hvalso⟩
          rw [secRunTol_cons_some (secStepTol_other (by simp)),
            secRunTol_cons_some (secStepTol_outdent hk), secRunTol]
          rfl
        · rw [if_neg hh] at h
          cases h
          refine ⟨so, ?_, hrtail, hvalso⟩
          rw [secRunTol_cons_some (secStepTol_outdent hk), secRunTol]
          rfl
  case ListItem =>
    cases frames with
    | nil => cases h
    | cons state r =>
      cases hrel with
      | cons hro hrtail =>
        rename_i o so
        dsimp only at h
        have ho3 := hvals o (by simp)
        rcases hkinds state (by simp) with hc | hc | hc
        · rw [if_pos hc] at h
          try dsimp only at h
          have hcond : ¬ (TokenKind.ListItem = TokenKind.MapKey ∧
              TokenKind.ListItem = TokenKind.ListItem) := by simp
          rw [if_neg hcond] at h
          have hcond2 : ¬ (TokenKind.ListItem = TokenKind.ListItem ∧
              TokenKind.ListItem = TokenKind.MapKey) := by simp
          rw [if_neg hcond2] at h
          cases h
          have ho : o = none := by
            rcases hro with ho | ho
            · exact ho
            · rw [hc] at ho
              rcases ho3 with h9 | h9 | h9 <;> rw [h9] at ho <;> simp at ho
          subst ho
          rw [secRunTol_nv_skip rfl]
          by_cases he : t.error = none
          · refine ⟨some TokenKind.ListItem :: so, ?_, ?_, ?_⟩
            · rw [secRunTol_cons_some ?_, secRunTol]
              rw [secStepTol_entry (Or.inr hk) he, hk]
              rfl
            · exact .cons (Or.inr rfl) hrtail
            · intro o' ho'
              rcases List.mem_cons.mp ho' with rfl | ho'
              · right; right; rfl
              · exact hvals o' (by simp [ho'])
          · refine ⟨none :: so, ?_, .cons (Or.inl rfl) hrtail, hvals⟩
            rw [secRunTol_cons_some (secStepTol_skip (Or.inr hk) he), secRunTol]
        · have hcne : ¬ (state.kind = TokenKind.Comment) := by simp [hc]
          rw [if_neg hcne] at h
          try dsimp only at h
          have hcond : state.kind = TokenKind.MapKey ∧
              TokenKind.ListItem = TokenKind.ListItem := ⟨hc, rfl⟩
          rw [if_pos hcond] at h
          cases h
          rw [secRunTol_nv_skip rfl]
          refine ⟨o :: so, ?_, .cons (by simpa using hro) hrtail, hvals⟩
          rw [secRunTol_cons_some (secStepTol_skip (Or.inl rfl) (by simp)),
            secRunTol]
        · have hcne : ¬ (state.kind = TokenKind.Comment) := by simp [hc]
          rw [if_neg hcne] at h
          try dsimp only at h
          have hcond : ¬ (state.kind = TokenKind.MapKey ∧
              TokenKind.ListItem = TokenKind.ListItem) := by simp [hc]
          rw [if_neg hcond] at h
          have hcond2 : ¬ (state.kind = TokenKind.ListItem ∧
              TokenKind.ListItem = TokenKind.MapKey) := by simp
          rw [if_neg hcond2] at h
          cases h
          rw [secRunTol_nv_skip rfl]
          by_cases he : t.error = none
          · rcases hro with ho | ho
            · subst ho
              refine ⟨some TokenKind.ListItem :: so, ?_, ?_, ?_⟩
              · rw [secRunTol_cons_some ?_, secRunTol]
                rw [secStepTol_entry (Or.inr hk) he, hk]
                rfl
              · exact .cons (Or.inr (by simp [hc])) hrtail
              · intro o' ho'
                rcases List.mem_cons.mp ho' with rfl | ho'
                · right; right; rfl
                · exact hvals o' (by simp [ho'])
            · rw [hc] at ho
              subst ho
              have hstep : secStepTol (some TokenKind.ListItem :: so) t =
                  some (some TokenKind.ListItem :: so) := by
                rw [secStepTol_entry (Or.inr hk) he, hk]
                rfl
              refine ⟨some TokenKind.ListItem :: so, ?_, ?_, hvals⟩
              · rw [secRunTol_cons_some hstep, secRunTol]
              · exact .cons (Or.inr (by simp [hc])) hrtail
          · refine ⟨o :: so, ?_, .cons (by simpa using hro) hrtail, hvals⟩
            rw [secRunTol_cons_some (secStepTol_skip (Or.inr hk) he), secRunTol]
  case MapKey =>
    cases frames with
    | nil => cases h
    | cons state r =>
      cases hrel with
      | cons hro hrtail =>
        rename_i o so
        dsimp only at h
        have ho3 := hvals o (by simp)
        rcases hkinds state (by simp) with hc | hc | hc
        · rw [if_pos hc] at h
          try dsimp only at h
          have hcond : ¬ (TokenKind.MapKey = TokenKind.MapKey ∧
              TokenKind.MapKey = TokenKind.ListItem) := by simp
          rw [if_neg hcond] at h
          have hcond2 : ¬ (TokenKind.MapKey = TokenKind.ListItem ∧
              TokenKind.MapKey = TokenKind.MapKey) := by simp
          rw [if_neg hcond2] at h
          cases h
          have ho : o = none := by
            rcases hro with ho | ho
            · exact ho
            · rw [hc] at ho
              rcases ho3 with h9 | h9 | h9 <;> rw [h9] at ho <;> simp at ho
          subst ho
          rw [secRunTol_nv_skip rfl]
          by_cases he : t.error = none
          · refine ⟨some TokenKind.MapKey :: so, ?_, ?_, ?_⟩
            · rw [secRunTol_cons_some ?_, secRunTol]
              rw [secStepTol_entry (Or.inl hk) he, hk]
              rfl
            · exact .cons (Or.inr rfl) hrtail
            · intro o' ho'
              rcases List.mem_cons.mp ho' with rfl | ho'
              · right; left; rfl
              · exact hvals o' (by simp [ho'])
          · refine ⟨none :: so, ?_, .cons (Or.inl rfl) hrtail, hvals⟩
            rw [secRunTol_cons_some (secStepTol_skip (Or.inl hk) he), secRunTol]
        · have hcne : ¬ (state.kind = TokenKind.Comment) := by simp [hc]
          rw [if_neg hcne] at h
          try dsimp only at h
          have hcond : ¬ (state.kind = TokenKind.MapKey ∧
              TokenKind.MapKey = TokenKind.ListItem) := by simp
          rw [if_neg hcond] at h
          have hcond2 : ¬ (state.kind = TokenKind.ListItem ∧
              TokenKind.MapKey = TokenKind.MapKey) := by simp [hc]
          rw [if_neg hcond2] at h
          cases h
          rw [secRunTol_nv_skip rfl]
          by_cases he : t.error = none
          · rcases hro with ho | ho
            · subst ho
              refine ⟨some TokenKind.MapKey :: so, ?_, ?_, ?_⟩
              · rw [secRunTol_cons_some ?_, secRunTol]
                rw [secStepTol_entry (Or.inl hk) he, hk]
                rfl
              · exact .cons (Or.inr (by simp [hc])) hrtail
              · intro o' ho'
                rcases List.mem_cons.mp ho' with rfl | ho'
                · right; left; rfl
                · exact hvals o' (by simp [ho'])
            · rw [hc] at ho
              subst ho
              have hstep : secStepTol (some TokenKind.MapKey :: so) t =
                  some (some TokenKind.MapKey :: so) := by
                rw [secStepTol_entry (Or.inl hk) he, hk]
                rfl
              refine ⟨some TokenKind.MapKey :: so, ?_, ?_, hvals⟩
              · rw [secRunTol_cons_some hstep, secRunTol]
              · exact .cons (Or.inr (by simp [hc])) hrtail
          · refine ⟨o :: so, ?_, .cons (by simpa using hro) hrtail, hvals⟩
            rw [secRunTol_cons_some (secStepTol_skip (Or.inl hk) he), secRunTol]
        · have hcne : ¬ (state.kind = TokenKind.Comment) := by simp [hc]
          rw [if_neg hcne] at h
          try dsimp only at h
          have hcond0 : ¬ (state.kind = TokenKind.MapKey ∧
              TokenKind.MapKey = TokenKind.ListItem) := by simp
          rw [if_neg hcond0] at h
          have hcond : state.kind = TokenKind.ListItem ∧
              TokenKind.MapKey = TokenKind.MapKey := ⟨hc, rfl⟩
          rw [if_pos hcond] at h
          cases h
          rw [secRunTol_nv_skip rfl]
          refine ⟨o :: so, ?_, .cons (by simpa using hro) hrtail, hvals⟩
          rw [secRunTol_cons_some (secStepTol_skip (Or.inr rfl) (by simp)),
            secRunTol]
  case Scalar =>
    cases frames with
    | nil => cases h
    | cons state r =>
      cases hrel with
      | cons hro hrtail =>
        rename_i o so
        dsimp only at h
        cases h
        refine ⟨o :: so, ?_, .cons (by simpa using hro) hrtail, hvals⟩
        rw [secRunTol_cons_some (secStepTol_other (by simp [hk])), secRunTol]
  case MultilineScalar =>
    cases frames with
    | nil => cases h
    | cons state r =>
      cases hrel with
      | cons hro hrtail =>
        rename_i o so
        dsimp only at h
        cases h
        refine ⟨o :: so, ?_, .cons (by simpa using hro) hrtail, hvals⟩
        rw [secRunTol_cons_some (secStepTol_other (by simp [hk])), secRunTol]
  case Comment =>
    cases h
    refine ⟨stk, ?_, hrel, hvals⟩
    rw [secRunTol_cons_some (secStepTol_other (by simp [hk])), secRunTol]
  case MultilineHint =>
    cases h
    refine ⟨stk, ?_, hrel, hvals⟩
    rw [secRunTol_cons_some (secStepTol_other (by simp [hk])), secRunTol]
  case NoValue => cases h

/-- The checker runs over a concatenation in two stages. -/
theorem secRunTol_append {a b : List Token} : ∀ {stk s : List (Option TokenKind)},
    secRunTol stk a = some s → secRunTol stk (a ++ b) = secRunTol s b := by
  induction a with
  | nil =>
    intro stk s h
    rw [secRunTol] at h
    cases h
    rw [List.nil_append]
  | cons t ts ih =>
    intro stk s h
    rw [secRunTol] at h
    cases hs : secStepTol stk t with
    | none =>
      rw [hs] at h
      cases h
    | some s1 =>
      rw [hs] at h
      dsimp only at h
      rw [List.cons_append, secRunTol_cons_some hs]
      exact ih h

/-- The validator's output stream never violates the amended checker. -/
theorem vRun_sec {ts : List Token} : ∀ {frames : List VFrame} {ll : Nat}
    {fs : List VFrame} {ll2 : Nat} {out : List Token} {d df : Nat}
    {stk : List (Option TokenKind)},
    vRun frames ll ts = .ok (fs, ll2, out) →
    frames.length = d + 1 →
    (∀ f ∈ frames, f.kind = TokenKind.Comment ∨ f.kind = TokenKind.MapKey ∨
      f.kind = TokenKind.ListItem) →
    replayDepth d ts = some df →
    List.Forall₂ (fun f o => o = none ∨ o = some f.kind) frames stk →
    (∀ o ∈ stk, o = none ∨ o = some TokenKind.MapKey ∨
      o = some TokenKind.ListItem) →
    ∃ stk2, secRunTol stk out = some stk2 := by
  induction ts with
  | nil =>
    intro frames ll fs ll2 out d df stk h hlen hkinds hrd hrel hvals
    rw [vRun] at h
    cases h
    exact ⟨stk, by rw [secRunTol]⟩
  | cons t rest ih =>
    intro frames ll fs ll2 out d df stk h hlen hkinds hrd hrel hvals
    rw [vRun] at h
    cases hv : vStep frames ll t with
    | error e => rw [hv] at h; cases h
    | ok x =>
      rw [hv] at h
      dsimp only at h
      cases hrun : vRun x.1 x.2.1 rest with
      | error e => rw [hrun] at h; cases h
      | ok y =>
        rw [hrun] at h
        cases h
        obtain ⟨e, h1, h2, h3, h4⟩ := vStep_spec hv hlen hkinds hrd
        obtain ⟨stk1, g1, g2, g3⟩ := vStep_sec hv hkinds hrel hvals
        obtain ⟨stk2, hh⟩ := ih hrun h2 h4 h3 g2 g3
        exact ⟨stk2, by rw [secRunTol_append g1]; exact hh⟩

/-- The end-of-input flush never violates the amended checker. -/
theorem secRunTol_flush (ll : Nat) : ∀ (frames : List VFrame)
    (stk : List (Option TokenKind)),
    ∃ s, secRunTol stk (vFlush ll frames) = some s := by
  intro frames
  induction frames with
  | nil =>
    intro stk
    exact ⟨stk, by rw [vFlush, secRunTol]⟩
  | cons state rest ih =>
    intro stk
    have hstep : secRunTol stk
        ((if state.hasKey = true then
            [({ lno := ll, kind := .NoValue, content := [], error := none } : Token)]
          else []) ++
          ((if rest ≠ [] then
              [({ lno := ll, kind := .Outdent, content := [], error := none } : Token)]
            else []) ++ vFlush ll rest)) =
        secRunTol stk
          ((if rest ≠ [] then
              [({ lno := ll, kind := .Outdent, content := [], error := none } : Token)]
            else []) ++ vFlush ll rest) :=
      secRunTol_nv_skip rfl _ _
    rw [vFlush, List.append_assoc, hstep]
    by_cases hr : rest ≠ []
    · rw [if_pos hr, List.singleton_append,
        secRunTol_cons_some (secStepTol_outdent rfl)]
      exact ih stk.tail
    · rw [if_neg hr, List.nil_append]
      exact ih stk

/-- Full pipeline: the validated tolerant stream passes the amended
section-homogeneity check. -/
theorem conlTokens_sec {input : List Char} {ts : List Token}
    (h : conlTokens input = .ok ts) :
    secCheckTol [none] ts = true := by
  unfold conlTokens at h
  cases hraw : tokenizeT input with
  | error e => rw [hraw] at h; cases h
  | ok raw =>
    rw [hraw] at h
    dsimp only at h
    cases hrun : vRun [{ kind := .Comment, hasKey := false }] 0 raw with
    | error e => rw [hrun] at h; cases h
    | ok x =>
      rw [hrun] at h
      cases h
      obtain ⟨⟨dfin, hdf⟩, hnv⟩ := tokenizeT_spec hraw
      have hkinds : ∀ f ∈ [({ kind := .Comment, hasKey := false } : VFrame)],
          f.kind = TokenKind.Comment ∨ f.kind = TokenKind.MapKey ∨
          f.kind = TokenKind.ListItem := by
        intro f hf
        simp at hf
        subst hf
        left
        rfl
      have hrel : List.Forall₂ (fun f o => o = none ∨ o = some f.kind)
          [({ kind := .Comment, hasKey := false } : VFrame)]
          [(none : Option TokenKind)] := .cons (Or.inl rfl) .nil
      have hvals : ∀ o ∈ [(none : Option TokenKind)],
          o = none ∨ o = some TokenKind.MapKey ∨
          o = some TokenKind.ListItem := by
        intro o ho
        simp at ho
        subst ho
        left
        rfl
      obtain ⟨stk2, hsec⟩ := vRun_sec hrun rfl hkinds hdf hrel hvals
      obtain ⟨s3, hflush⟩ := secRunTol_flush x.2.1 x.1 stk2
      unfold secCheckTol
      rw [secRunTol_append hsec, hflush]
      rfl

/-- C3 (amended): within every section of the validated tolerant
stream, the `MapKey`/`ListItem` tokens emitted *without* an error are all
of one kind (conflicting raw entries are replaced by tokens of the
section's kind flagged `unexpected list item`/`unexpected map key`); the
concrete stream for `"key = value\n= x"` shows the conversion. -/
theorem c3_tolerant_homogeneity :
    (∀ (input : List Char) (ts : List Token),
      conlTokens input = .ok ts → secCheckTol [none] ts = true) ∧
    conlTokens "key = value\n= x".data = .ok
      [⟨1, .MapKey, "key".data, none⟩, ⟨1, .Scalar, "value".data, none⟩,
       ⟨2, .MapKey, [], some "unexpected list item".data⟩,
       ⟨2, .Scalar, "x".data, none⟩] :=
  ⟨fun _ _ h => conlTokens_sec h, rfl⟩

/-- Witness for the amended C3 at the concrete input `"key = value\n= x"`. -/
theorem c3_tolerant_homogeneity_witness :
    secCheckTol [none]
      [⟨1, .MapKey, "key".data, none⟩, ⟨1, .Scalar, "value".data, none⟩,
       ⟨2, .MapKey, [], some "unexpected list item".data⟩,
       ⟨2, .Scalar, "x".data, none⟩] = true :=
  c3_tolerant_homogeneity.1 "key = value\n= x".data _ rfl

/-- `intercalate` with a one-character separator, unfolded to the
accumulation shape used by the tokenizer. -/
theorem intercalate_newline : ∀ (xs : List (List Char)) (v : List Char),
    List.intercalate ['\n'] (v :: xs) =
      v ++ (xs.map (fun c => '\n' :: c)).join := by
  intro xs
  induction xs with
  | nil =>
    intro v
    simp [List.intercalate]
  | cons c rest ih =>
    intro v
    have h2 := ih c
    simp only [List.intercalate] at h2 ⊢
    rw [List.intersperse_cons_cons, List.join_cons, List.join_cons, h2]
    simp [List.append_assoc]

/-- A line that emits no tokens just threads the state. -/
theorem lexAll_cons_skip {st st2 : LexState} {l : Nat × List Char}
    {ls : List (Nat × List Char)}
    (hl : lexLine st l.1 l.2 = .ok (st2, [])) :
    lexAll st (l :: ls) = lexAll st2 ls := by
  unfold lexAll
  rw [lexLines, hl]
  dsimp only
  cases hr : lexLines st2 ls with
  | error e => rfl
  | ok y => rfl

/-- A body line matching the multiline prefix appends its de-indented
content. -/
theorem lexLine_body_prefixed {st : LexState} {lno : Nat} {content : List Char}
    (hml : st.multiline = true) (hp : st.multilinePrefix ≠ [])
    (hpre : st.multilinePrefix.isPrefixOf content = true) :
    lexLine st lno content = .ok
      ({ st with multilineValue :=
          st.multilineValue ++ '\n' :: content.drop st.multilinePrefix.length },
       []) := by
  unfold lexLine
  rw [if_pos hml, if_neg hp, if_pos hpre]

/-- A blank body line appends an empty body line. -/
theorem lexLine_body_blank {st : LexState} {lno : Nat} {content : List Char}
    (hml : st.multiline = true) (hp : st.multilinePrefix ≠ [])
    (hpre : ¬ (st.multilinePrefix.isPrefixOf content = true))
    (hblank : (trimLeft content).2 = []) :
    lexLine st lno content = .ok
      ({ st with multilineValue := st.multilineValue ++ ['\n'] }, []) := by
  unfold lexLine
  rw [if_pos hml, if_neg hp, if_neg hpre, if_pos hblank]

/-- C5: for a multiline block in progress (prefix `p`, value so far
`v`, hint line `mlno`), consuming only body lines (each either `p`-prefixed
or blank) up to end of input emits exactly one `MultilineScalar` whose
content is the body lines — each with `p` removed, blank lines contributing
empty body lines — joined with `'\n'` and with trailing
spaces/tabs/CR/LF stripped from the end of the joined text only; and a
block starts at the first line strictly deeper than the stack top, taking
its full leading whitespace as `p` and the rest of the line as the first
body line. -/
theorem c5_multiline_content :
    (∀ (ls : List (Nat × List Char)) (st : LexState) (ts : List Token),
      st.multiline = true → st.multilinePrefix ≠ [] → st.multilineValue ≠ [] →
      (∀ l ∈ ls, st.multilinePrefix.isPrefixOf l.2 = true ∨
        (trimLeft l.2).2 = []) →
      lexAll st ls = .ok ts →
      ts = [{ lno := st.multilineLno, kind := .MultilineScalar,
              content := trimRight (List.intercalate ['\n']
                (st.multilineValue :: ls.map (fun l =>
                  if st.multilinePrefix.isPrefixOf l.2 then
                    l.2.drop st.multilinePrefix.length
                  else []))) mlTrimChars,
              error := none }]) ∧
    (∀ (st : LexState) (lno : Nat) (c : List Char),
      st.multiline = true → st.multilinePrefix = [] →
      ((st.stack.headD []).isPrefixOf (trimLeft c).1 ∧
        (trimLeft c).1 ≠ st.stack.headD []) →
      lexLine st lno c = .ok
        ({ st with multilinePrefix := (trimLeft c).1,
                   multilineValue := (trimLeft c).2,
                   multilineLno := lno }, [])) := by
  constructor
  · intro ls
    induction ls with
    | nil =>
      intro st ts hml hp hv hbody h
      unfold lexAll at h
      rw [lexLines] at h
      dsimp only at h
      cases h
      unfold tokenizeFlush
      rw [if_pos hml, if_pos hv]
      simp [checkUtf8, intercalate_newline]
    | cons l ls ih =>
      intro st ts hml hp hv hbody h
      by_cases hpre : st.multilinePrefix.isPrefixOf l.2 = true
      · rw [lexAll_cons_skip (lexLine_body_prefixed hml hp hpre)] at h
        have h2 := ih
          { st with multilineValue :=
              st.multilineValue ++ '\n' :: l.2.drop st.multilinePrefix.length }
          ts hml hp (by simp) (fun l2 hl2 => hbody l2 (by simp [hl2])) h
        rw [h2]
        simp only [List.map_cons, intercalate_newline, List.join_cons]
        rw [if_pos hpre]
        simp [List.append_assoc]
      · have hblank : (trimLeft l.2).2 = [] := by
          rcases hbody l (by simp) with h9 | h9
          · exact absurd h9 hpre
          · exact h9
        rw [lexAll_cons_skip (lexLine_body_blank hml hp hpre hblank)] at h
        have h2 := ih
          { st with multilineValue := st.multilineValue ++ ['\n'] }
          ts hml hp (by simp) (fun l2 hl2 => hbody l2 (by simp [hl2])) h
        rw [h2]
        simp only [List.map_cons, intercalate_newline, List.join_cons]
        rw [if_neg hpre]
        simp [List.append_assoc]
  · intro st lno c hml hp hcond
    unfold lexLine
    rw [if_pos hml, if_pos hp, if_pos hcond]

/-- Witness for C5: a concrete block with inner and trailing whitespace. -/
theorem c5_multiline_content_witness :
    lexAll
      { stack := [[]], multiline := true, multilinePrefix := "  ".data,
        multilineValue := "a b".data, multilineLno := 1 }
      [(2, "   x ".data), (3, ([] : List Char)), (4, "  y\t".data)] = .ok
      [{ lno := 1, kind := .MultilineScalar, content := "a b\n x \n\ny".data,
         error := none }] ∧
    [({ lno := 1, kind := .MultilineScalar, content := "a b\n x \n\ny".data,
        error := none } : Token)] =
    [{ lno := (1 : Nat), kind := .MultilineScalar,
       content := trimRight (List.intercalate ['\n']
         ("a b".data ::
           [(2, "   x ".data), (3, ([] : List Char)), (4, "  y\t".data)].map
             (fun l => if "  ".data.isPrefixOf l.2 then
                 l.2.drop "  ".data.length
               else []))) mlTrimChars,
       error := none }] :=
  ⟨rfl,
   c5_multiline_content.1
     [(2, "   x ".data), (3, ([] : List Char)), (4, "  y\t".data)]
     { stack := [[]], multiline := true, multilinePrefix := "  ".data,
       multilineValue := "a b".data, multilineLno := 1 }
     [{ lno := 1, kind := .MultilineScalar, content := "a b\n x \n\ny".data,
        error := none }]
     rfl (by decide) (by decide) (by decide) rfl⟩

end Conl

